import Mathlib

/-!
Verification development for `teleprompter.py` (Maximophone/simple_teleprompter).

The Python source is shallowly embedded:

* Python `str` values are modelled as `List Char`; string methods (`strip`,
  `lower`, `startswith`, regex scans) are defined below, restricted to the
  ASCII whitespace notion `Char.isWhitespace` (the inputs of interest are
  plain ASCII text).
* Python `int` is `ℤ` (`//` is `Int.fdiv`, `%` is `Int.fmod`, both matching
  Python's flooring semantics).
* Python `float` arithmetic is idealised as exact rational arithmetic (`ℚ`);
  `float(s)` of a decimal literal is the literal's exact rational value and
  `int(x)` is truncation toward zero.  Every concrete input used in a theorem
  below has been chosen so that the corresponding double-precision run of the
  source performs the same comparisons and produces the same integers.
* The `tkinter` timer machinery (`root.after` / `after_cancel`) is modelled by
  explicit pending-timer fields holding a fresh handle (a counter) and the
  requested delay; firing a timer removes it and runs the embedded callback.
-/

/- The Batteries rational-number operations are `@[irreducible]`; unseal them
so that concrete witnesses evaluate by `decide`. -/
unseal Rat.mul Rat.add Rat.sub Rat.inv

namespace Teleprompter

/-! ### Python string primitives (`str` as `List Char`) -/

/-- Whitespace test used for `str.strip`, `str.split` and the regex class
`\s` (ASCII approximation). -/
def isSpace (c : Char) : Bool := c.isWhitespace

/-- `str.lstrip()`: drop leading whitespace. -/
def stripStart (s : List Char) : List Char := s.dropWhile isSpace

/-- `str.rstrip()`: drop trailing whitespace. -/
def stripEnd : List Char → List Char
  | [] => []
  | c :: cs =>
    match stripEnd cs with
    | [] => if isSpace c then [] else [c]
    | r => c :: r

/-- `str.strip()`: drop leading and trailing whitespace. -/
def strip (s : List Char) : List Char := stripEnd (stripStart s)

/-- `str.lower()` (character-wise; only evaluated on ASCII data here). -/
def lower (s : List Char) : List Char := s.map Char.toLower

/-- `str.startswith(pat)`; first argument is the pattern. -/
def startsWithCh : List Char → List Char → Bool
  | [], _ => true
  | _ :: _, [] => false
  | p :: ps, c :: cs => (c = p) && startsWithCh ps cs

/-- One scanning state of the `\S+` finder (`re.finditer(r"\S+", text)`):
current offset and the start offset of the word currently being read, if any.
Produces the half-open character spans of the whitespace-delimited words. -/
def spansGo : List Char → Nat → Option Nat → List (Nat × Nat)
  | [], _, none => []
  | [], i, some st => [(st, i)]
  | c :: cs, i, none =>
    if isSpace c then spansGo cs (i + 1) none else spansGo cs (i + 1) (some i)
  | c :: cs, i, some st =>
    if isSpace c then (st, i) :: spansGo cs (i + 1) none
    else spansGo cs (i + 1) (some st)

/-- Word spans of a paragraph: `[(m.start(), m.end()) for m in re.finditer(r"\S+", text)]`. -/
def wordSpans (s : List Char) : List (Nat × Nat) := spansGo s 0 none

/-- `words_in`: `len(s.split())`, the number of whitespace-delimited words. -/
def words_in (s : List Char) : Nat := (wordSpans s).length

/-! ### Text segmenter: `split_paragraphs` -/

/-- Newline normalisation: `.replace("\r\n", "\n").replace("\r", "\n")`. -/
def normalizeNL : List Char → List Char
  | [] => []
  | '\r' :: '\n' :: t => '\n' :: normalizeNL t
  | '\r' :: t => '\n' :: normalizeNL t
  | c :: t => c :: normalizeNL t

/-- Length of a match of `\n\s*\n+` anchored at the head of `s`, if any.
With backtracking, the regex matches from the leading newline through the
last newline of the maximal whitespace run that follows it, provided the run
contains at least one further newline. -/
def blankMatchLen (s : List Char) : Option Nat :=
  match s with
  | '\n' :: rest =>
    match (rest.takeWhile isSpace).reverse.findIdx? (fun c => c = '\n') with
    | some j => some ((rest.takeWhile isSpace).length - j + 1)
    | none => none
  | _ => none

/-- `re.split(r"\n\s*\n+", text)`: scan left to right, starting a new part at
every match.  Non-matching characters accumulate onto the current (first)
part.  The scan consumes at least one character per step, so `fuel = length`
suffices; the fuel parameter only makes the recursion structural. -/
def splitBlankGo : Nat → List Char → List (List Char)
  | _, [] => [[]]
  | 0, s => [s]
  | fuel + 1, c :: cs =>
    match blankMatchLen (c :: cs) with
    | some k => [] :: splitBlankGo fuel ((c :: cs).drop k)
    | none =>
      match splitBlankGo fuel cs with
      | [] => [[c]]
      | p :: ps => (c :: p) :: ps

/-- `re.split(r"\n\s*\n+", text)`. -/
def splitBlank (s : List Char) : List (List Char) := splitBlankGo s.length s

/-- `split_paragraphs`: normalise newlines, split on blank-line runs, strip
each part and keep the non-empty ones. -/
def split_paragraphs (md_text : List Char) : List (List Char) :=
  ((splitBlank (normalizeNL md_text)).map strip).filter (fun p => p ≠ [])

/-! ### Text segmenter: `expand_breaks` and the `BREAK_TOKEN_RE` scanner -/

/-- The literal prefix of `BREAK_TOKEN_RE = re.compile(r"\[break:(\d+(?:\.\d+)?)\]", re.IGNORECASE)`,
as (lower, upper) character pairs; `re.IGNORECASE` only affects the letters. -/
def BREAK_PAT : List (Char × Char) :=
  [('[', '['), ('b', 'B'), ('r', 'R'), ('e', 'E'), ('a', 'A'), ('k', 'K'), (':', ':')]

/-- Match a case-insensitive literal given as (lower, upper) pairs at the head
of `s`, returning the remainder on success. -/
def matchPat : List (Char × Char) → List Char → Option (List Char)
  | [], s => some s
  | _ :: _, [] => none
  | p :: ps, c :: cs => if c = p.1 || c = p.2 then matchPat ps cs else none

theorem matchPat_length {ps : List (Char × Char)} {s r : List Char}
    (h : matchPat ps s = some r) : r.length + ps.length = s.length := by
  induction ps generalizing s with
  | nil =>
    simp only [matchPat, Option.some.injEq] at h
    simp [← h]
  | cons p ps ih =>
    match s with
    | [] => simp [matchPat] at h
    | c :: cs =>
      simp only [matchPat] at h
      split at h
      · have := ih h
        simp only [List.length_cons]
        omega
      · exact absurd h (by simp)

/-- Try to match `BREAK_TOKEN_RE` at the head of `s`.  On success, return the
captured number string (group 1) and the remainder after the closing `]`.
The regex `\d+(?:\.\d+)?` is deterministic here: both digit runs are maximal,
and the fractional part is present exactly when a `.` followed by a digit
follows the integer digits. -/
def tryMatchToken (s : List Char) : Option (List Char × List Char) :=
  match matchPat BREAK_PAT s with
  | none => none
  | some r =>
    match r.takeWhile Char.isDigit, r.dropWhile Char.isDigit with
    | [], _ => none
    | _ :: _, '.' :: r2 =>
      match r2.takeWhile Char.isDigit, r2.dropWhile Char.isDigit with
      | [], _ => none
      | _ :: _, ']' :: rest =>
        some (r.takeWhile Char.isDigit ++ '.' :: r2.takeWhile Char.isDigit, rest)
      | _ :: _, _ => none
    | _ :: _, ']' :: rest => some (r.takeWhile Char.isDigit, rest)
    | _ :: _, _ => none

theorem tryMatchToken_length {s : List Char} {num rest : List Char}
    (h : tryMatchToken s = some (num, rest)) : rest.length < s.length := by
  unfold tryMatchToken at h
  split at h
  · exact absurd h (by simp)
  case _ r hr =>
    have hrlen : r.length + 7 = s.length := matchPat_length hr
    have hsplit : r.takeWhile Char.isDigit ++ r.dropWhile Char.isDigit = r :=
      List.takeWhile_append_dropWhile _ _
    split at h
    · exact absurd h (by simp)
    case _ d0 ds r2 htake hdrop =>
      have hsplit2 : r2.takeWhile Char.isDigit ++ r2.dropWhile Char.isDigit = r2 :=
        List.takeWhile_append_dropWhile _ _
      have hr2len : r2.length + 2 ≤ r.length := by
        have := congrArg List.length hsplit
        rw [htake, hdrop] at this
        simp only [List.length_append, List.length_cons] at this
        omega
      split at h
      · exact absurd h (by simp)
      case _ f0 fs rest2 htake2 hdrop2 =>
        simp only [Option.some.injEq, Prod.mk.injEq] at h
        obtain ⟨-, rfl⟩ := h
        have := congrArg List.length hsplit2
        rw [htake2, hdrop2] at this
        simp only [List.length_append, List.length_cons] at this
        omega
      case _ => exact absurd h (by simp)
    case _ d0 ds rest2 htake hdrop =>
      simp only [Option.some.injEq, Prod.mk.injEq] at h
      obtain ⟨-, rfl⟩ := h
      have := congrArg List.length hsplit
      rw [htake, hdrop] at this
      simp only [List.length_append, List.length_cons] at this
      omega
    case _ => exact absurd h (by simp)

/-- `BREAK_TOKEN_RE.finditer(para)` together with the `last_end` bookkeeping of
`expand_breaks`: returns one `(before, group 1)` pair per match (the text since
the previous match, and the captured number string) plus the remainder after
the last match.  A position that starts no match contributes its character to
the `before` of the next match (or to the trailing remainder).  Each step
consumes at least one character (`tryMatchToken_length`), so `fuel = length`
suffices; the fuel parameter only makes the recursion structural. -/
def breakSplitsGo : Nat → List Char → List (List Char × List Char) × List Char
  | _, [] => ([], [])
  | 0, s => ([], s)
  | fuel + 1, c :: cs =>
    match tryMatchToken (c :: cs) with
    | some (num, rest) =>
      (([], num) :: (breakSplitsGo fuel rest).1, (breakSplitsGo fuel rest).2)
    | none =>
      match breakSplitsGo fuel cs with
      | ([], tail) => ([], c :: tail)
      | ((b, numb) :: ms, tail) => ((c :: b, numb) :: ms, tail)

/-- The match/gap decomposition of one paragraph. -/
def breakSplits (s : List Char) : List (List Char × List Char) × List Char :=
  breakSplitsGo s.length s

/-! ### Decimal parsing and `%g` formatting

`float(match.group(1))` followed by `f"{sec:g}"` and `int(sec * 1000)` is
idealised over `ℚ`: the decimal literal is parsed exactly, `%g` is C `%g`
with its default precision 6 (round to 6 significant digits, fixed notation
for decimal exponents in `[-4, 6)`, scientific otherwise, trailing zeros
stripped), and `int` truncates toward zero. -/

/-- Numeric value of a digit string (most significant first). -/
def digitsToNat (l : List Char) : Nat :=
  l.foldl (fun a c => 10 * a + (c.toNat - 48)) 0

/-- Exact rational value of a decimal literal `\d+(\.\d+)?`
(the idealisation of `float(match.group(1))`). -/
def parseDec (num : List Char) : ℚ :=
  let d := num.takeWhile Char.isDigit
  let f := match num.dropWhile Char.isDigit with
    | '.' :: fs => fs
    | _ => []
  (digitsToNat d : ℚ) + (digitsToNat f : ℚ) / (10 : ℚ) ^ f.length

/-- Round to the nearest integer, ties to even (IEEE / Python `round`). -/
def roundHalfEven (q : ℚ) : ℤ :=
  if q - ⌊q⌋ < 1/2 then ⌊q⌋
  else if (1:ℚ)/2 < q - ⌊q⌋ then ⌊q⌋ + 1
  else if ⌊q⌋ % 2 = 0 then ⌊q⌋ else ⌊q⌋ + 1

/-- Fuel-bounded upward scan for the decimal exponent: while `q ≥ 10`, divide
by 10. -/
def expUp : Nat → ℚ → ℤ → ℤ
  | 0, _, e => e
  | fuel + 1, q, e => if q < 10 then e else expUp fuel (q / 10) (e + 1)

/-- Fuel-bounded downward scan for the decimal exponent: while `q < 1`,
multiply by 10. -/
def expDown : Nat → ℚ → ℤ → ℤ
  | 0, _, e => e
  | fuel + 1, q, e => if 1 ≤ q then e else expDown fuel (q * 10) (e - 1)

/-- Decimal exponent of a positive rational: the unique `e` with
`10^e ≤ q < 10^(e+1)`.  The fuel bounds below are generous upper bounds on the
number of scaling steps. -/
def decExp (q : ℚ) : ℤ :=
  if q < 1 then expDown (q.den + 1) q 0 else expUp (q.num.natAbs + 1) q 0

/-- Decimal digits of a natural number, most significant first. -/
def natDigitCharsAux : Nat → Nat → List Char → List Char
  | 0, _, acc => acc
  | fuel + 1, n, acc =>
    if n = 0 then acc
    else natDigitCharsAux fuel (n / 10) (Char.ofNat (48 + n % 10) :: acc)

/-- Decimal digit string of a natural number. -/
def natDigitChars (n : Nat) : List Char :=
  if n = 0 then ['0'] else natDigitCharsAux (n + 1) n []

/-- Strip trailing `'0'` characters. -/
def stripZerosEnd (l : List Char) : List Char :=
  (l.reverse.dropWhile (fun c => c = '0')).reverse

/-- Exponent suffix of `%g` scientific notation: sign and at least two digits. -/
def expSuffix (e : ℤ) : List Char :=
  let ds := natDigitChars e.natAbs
  'e' :: (if e < 0 then '-' else '+') :: (if e.natAbs < 10 then '0' :: ds else ds)

/-- C/Python `%g` formatting (default precision 6) of a non-negative rational;
only non-negative values reach it in this program. -/
def formatG (q : ℚ) : List Char :=
  if q ≤ 0 then ['0']
  else
    let e0 := decExp q
    let m0 := roundHalfEven (q * (10 : ℚ) ^ (5 - e0))
    let m := if m0 = 1000000 then (100000 : ℤ) else m0
    let e := if m0 = 1000000 then e0 + 1 else e0
    let ds := natDigitChars m.toNat
    if -4 ≤ e ∧ e < 6 then
      if 0 ≤ e then
        let k := e.toNat + 1
        let frac := stripZerosEnd (ds.drop k)
        if frac = [] then ds.take k else ds.take k ++ '.' :: frac
      else
        '0' :: '.' :: stripZerosEnd (List.replicate (-(e + 1)).toNat '0' ++ ds)
    else
      let frac := stripZerosEnd (ds.drop 1)
      (if frac = [] then ds.take 1 else ds.take 1 ++ '.' :: frac) ++ expSuffix e

/-- Python `int(x)` on a rational: truncation toward zero. -/
def pyTrunc (q : ℚ) : ℤ := if q < 0 then -⌊-q⌋ else ⌊q⌋

/-- Display text of a generated break unit: `f"Break ({sec:g} s)"`. -/
def breakText (num : List Char) : List Char :=
  "Break (".toList ++ formatG (parseDec num) ++ " s)".toList

/-- Override duration of a generated break unit: `int(sec * 1000)`. -/
def breakOverride (num : List Char) : ℤ := pyTrunc (parseDec num * 1000)

/-- The body of `expand_breaks` for one paragraph, producing the flat list of
`(text, override)` units this paragraph contributes (the source appends text
and override to two parallel lists; here they are paired). -/
def expandPara (para : List Char) : List (List Char × Option ℤ) :=
  if (breakSplits para).1 = [] then [(para, none)]
  else
    ((breakSplits para).1.flatMap fun bn =>
      (if bn.1 ≠ [] ∧ strip bn.1 ≠ [] then [(strip bn.1, (none : Option ℤ))] else [])
        ++ [(breakText bn.2, some (breakOverride bn.2))])
      ++ (if (breakSplits para).2 ≠ [] ∧ strip (breakSplits para).2 ≠ []
          then [(strip (breakSplits para).2, (none : Option ℤ))] else [])

/-- `expand_breaks(paragraphs)`: the two parallel result lists
`(expanded, duration_overrides_ms)`. -/
def expand_breaks (paragraphs : List (List Char)) :
    List (List Char) × List (Option ℤ) :=
  ((paragraphs.flatMap expandPara).map Prod.fst,
   (paragraphs.flatMap expandPara).map Prod.snd)

/-- `Teleprompter._is_break_paragraph`. -/
def _is_break_paragraph (text : List Char) (override : Option ℤ) : Bool :=
  override.isSome && startsWithCh "break (".toList (lower (strip text))

/-! ### Duration calculator -/

/-- The pacing fields of the parsed options (floats idealised as `ℚ`). -/
structure Opts where
  spw : ℚ
  wpm : ℚ
  min_sec : ℚ
  max_sec : Option ℚ
  deriving DecidableEq

/-- The `parse_args` resolution step: `if not args.spw: args.spw = 60.0 / float(args.wpm)`
(Python truthiness: `not args.spw` holds exactly when `spw = 0`). -/
def resolve_spw (spw wpm : ℚ) : ℚ :=
  if spw = 0 then 60 / wpm else spw

/-- `Teleprompter.paragraph_duration_ms`.  Note the source overwrites `spw`
with `60.0 / wpm` whenever `opts.wpm` is truthy (non-zero), regardless of the
configured `spw`. -/
def paragraph_duration_ms (opts : Opts) (text : List Char) : ℤ :=
  let spw := if opts.wpm ≠ 0 then 60 / opts.wpm else opts.spw
  let dur := max opts.min_sec ((words_in text : ℚ) * spw)
  let dur2 := match opts.max_sec with
    | some m => min dur m
    | none => dur
  pyTrunc (dur2 * 1000)

/-- The duration formula asserted by the claim (C2), written from the claim's
words: `round(clamp(wordCount * secondsPerWord, minSeconds, maxSeconds) * 1000)`
with the explicitly configured seconds-per-word. -/
def c2_claimed_duration_ms (spw min_sec : ℚ) (max_sec : Option ℚ) (wordCount : Nat) : ℤ :=
  let dur := max min_sec ((wordCount : ℚ) * spw)
  let dur2 := match max_sec with
    | some m => min dur m
    | none => dur
  round (dur2 * 1000)

/-! ### Word-highlight interval partition (`_start_word_highlighting`, timing
computation for `words_count > 1` and `total_ms > 0`) -/

/-- `last_hold_ms = total_ms // words_count + (1 if total_ms % words_count > 0 else 0)`. -/
def last_hold_ms (total_ms : ℤ) (words_count : Nat) : ℤ :=
  let per_word_floor := total_ms.fdiv (words_count : ℤ)
  let extra := total_ms.fmod (words_count : ℤ)
  per_word_floor + (if 0 < extra then 1 else 0)

/-- `remaining_ms = total_ms - last_hold_ms`. -/
def remaining_ms (total_ms : ℤ) (words_count : Nat) : ℤ :=
  total_ms - last_hold_ms total_ms words_count

/-- `_word_intervals_ms`: `words_count - 1` transition intervals; the first
`remaining_ms % transitions` get `base + 1`, the rest `base`. -/
def word_intervals_ms (total_ms : ℤ) (words_count : Nat) : List ℤ :=
  (List.range (words_count - 1)).map
    (fun (i : Nat) =>
      (remaining_ms total_ms words_count).fdiv ((words_count - 1 : Nat) : ℤ)
        + (if (i : ℤ) < (remaining_ms total_ms words_count).fmod ((words_count - 1 : Nat) : ℤ)
           then 1 else 0))

theorem word_intervals_ms_length (total_ms : ℤ) (words_count : Nat) :
    (word_intervals_ms total_ms words_count).length = words_count - 1 := by
  simp [word_intervals_ms]

/-- Sum of `k` terms `base + (1 if i < rem else 0)` is `k * base + min rem k`. -/
theorem sum_base_indicator (k : Nat) (b r : ℤ) (hr : 0 ≤ r) :
    ((List.range k).map (fun (i : Nat) => b + (if (i : ℤ) < r then 1 else 0))).sum
      = k * b + min r k := by
  induction k with
  | zero =>
    simp only [List.range_zero, List.map_nil, List.sum_nil, Nat.cast_zero, zero_mul, zero_add]
    omega
  | succ k ih =>
    rw [List.range_succ, List.map_append, List.sum_append]
    simp only [List.map_cons, List.map_nil, List.sum_cons, List.sum_nil]
    rw [ih]
    by_cases hk : (k : ℤ) < r
    · rw [if_pos hk]
      have h1 : min r (k : ℤ) = k := by omega
      have h2 : min r ((k : ℤ) + 1) = k + 1 := by omega
      push_cast
      rw [h1]
      push_cast at h2 ⊢
      rw [h2]
      ring
    · rw [if_neg hk]
      have h1 : min r (k : ℤ) = r := by omega
      have h2 : min r ((k : ℤ) + 1) = r := by omega
      push_cast
      rw [h1]
      push_cast at h2 ⊢
      rw [h2]
      ring

/-- Claim C1: for every non-break unit with more than one word span and
positive total duration, the computed transition intervals plus the final
hold interval sum exactly to `total_ms`. -/
theorem C1_partition_sums_to_total (total_ms : ℤ) (words_count : Nat)
    (htotal : 0 < total_ms) (hwc : 2 ≤ words_count) :
    (word_intervals_ms total_ms words_count).sum
      + last_hold_ms total_ms words_count = total_ms := by
  have hT : (0 : ℤ) < ((words_count - 1 : Nat) : ℤ) := by
    have : 1 ≤ words_count - 1 := by omega
    exact_mod_cast Nat.lt_of_lt_of_le Nat.zero_lt_one this
  set T : ℤ := ((words_count - 1 : Nat) : ℤ) with hTdef
  set R : ℤ := remaining_ms total_ms words_count with hRdef
  have hrem_nonneg : 0 ≤ R.fmod T := Int.fmod_nonneg' R hT
  have hrem_lt : R.fmod T < T := Int.fmod_lt_of_pos R hT
  have hsum := sum_base_indicator (words_count - 1) (R.fdiv T) (R.fmod T) hrem_nonneg
  have hmin : min (R.fmod T) T = R.fmod T := min_eq_left (le_of_lt hrem_lt)
  unfold word_intervals_ms
  rw [← hRdef, ← hTdef]
  rw [hsum, ← hTdef, hmin]
  have hdm : T * R.fdiv T + R.fmod T = R := Int.fdiv_add_fmod R T
  rw [hdm, hRdef]
  unfold remaining_ms
  ring

/-- Witness for C1 at the spec's own example: `total_ms = 1000`, `N = 3`
(intervals `[333, 333]`, hold `334`). -/
theorem C1_partition_sums_to_total_witness :
    (0 : ℤ) < 1000 ∧ 2 ≤ 3
      ∧ (word_intervals_ms 1000 3).sum + last_hold_ms 1000 3 = 1000
      ∧ word_intervals_ms 1000 3 = [333, 333] ∧ last_hold_ms 1000 3 = 334 :=
  ⟨by decide, by decide, C1_partition_sums_to_total 1000 3 (by decide) (by decide),
    by decide, by decide⟩

/-! ### Word-highlight scheduler, unit-local model (`Chain`)

`_start_word_highlighting`, the `schedule_next`/`tick` closures and
`_highlight_up_to`, for one non-break unit.  `auto_next` (advance to the next
display unit) is abstracted by the ghost flag `advanced`; pending `root.after`
timers are the `word_timer` (`word_timer_id`: the `tick` closure, or
`auto_next` in the single-word case) and `hold_timer` (`timer_id`: always
`auto_next`) fields, holding the requested delay.  `highlights` is a ghost log
of every cursor value set by `_highlight_up_to`, and `no_words_branch` is a
ghost marker for the empty-`word_spans` branch. -/

namespace Chain

/-- Which callback a pending `word_timer_id` runs. -/
inductive WordCb
  | tick
  | advance
  deriving DecidableEq

/-- Unit-local scheduler state. -/
structure State where
  word_spans : List (Nat × Nat)
  current_word_index : ℤ
  word_intervals_ms : List ℤ
  next_interval_idx : Nat
  last_hold : ℤ
  word_timer : Option (WordCb × ℤ)
  hold_timer : Option ℤ
  paused : Bool
  advanced : Bool
  no_words_branch : Bool
  highlights : List ℤ
  deriving DecidableEq

/-- State directly after `_render_paragraph` of a non-break unit. -/
def init (spans : List (Nat × Nat)) : State :=
  { word_spans := spans, current_word_index := -1, word_intervals_ms := [],
    next_interval_idx := 0, last_hold := 0, word_timer := none,
    hold_timer := none, paused := false, advanced := false,
    no_words_branch := false, highlights := [] }

/-- The clamp in `_highlight_up_to`: `max(0, min(word_index, len(spans) - 1))`. -/
def clampCursor (word_index : ℤ) (n : Nat) : ℤ :=
  max 0 (min word_index ((n : ℤ) - 1))

/-- The two span reads `word_spans[0]` and `word_spans[index]` performed when
the `spoken` tag is applied; `none` models an out-of-bounds read. -/
def highlight_range (spans : List (Nat × Nat)) (index : Nat) : Option (Nat × Nat) :=
  match spans[0]?, spans[index]? with
  | some a, some b => some (a.1, b.2)
  | _, _ => none

/-- `_highlight_up_to(word_index)`. -/
def highlight_up_to (st : State) (word_index : ℤ) : State :=
  if st.word_spans = [] then st
  else
    { st with
      current_word_index := clampCursor word_index st.word_spans.length,
      highlights := st.highlights ++ [clampCursor word_index st.word_spans.length] }

/-- The `schedule_next` closure. -/
def schedule_next (st : State) : State :=
  if st.paused then st
  else if st.word_intervals_ms.length ≤ st.next_interval_idx then
    { st with word_timer := none, hold_timer := some (max 1 st.last_hold) }
  else
    { st with
      word_timer :=
        some (WordCb.tick, max 1 (st.word_intervals_ms.getD st.next_interval_idx 0)) }

/-- The `tick` closure (body of the word-transition timer). -/
def tick (st : State) : State :=
  if st.paused then st
  else if st.current_word_index + 1 < (st.word_spans.length : ℤ) then
    schedule_next
      { highlight_up_to st (st.current_word_index + 1) with
        next_interval_idx := st.next_interval_idx + 1 }
  else
    { st with word_timer := none, hold_timer := some 1 }

/-- `_start_word_highlighting(total_ms)`.  (The source computes `words_count`
before highlighting the first word; since `_highlight_up_to` does not change
`word_spans`, testing `words_count == 1` before the highlight is equivalent.) -/
def start_word_highlighting (st : State) (total_ms : ℤ) : State :=
  if st.word_spans = [] then
    { st with hold_timer := some (max 0 total_ms), no_words_branch := true }
  else if total_ms ≤ 0 then
    { highlight_up_to st ((st.word_spans.length : ℤ) - 1) with advanced := true }
  else if st.word_spans.length = 1 then
    { highlight_up_to st 0 with word_timer := some (WordCb.advance, total_ms) }
  else
    schedule_next
      { highlight_up_to st 0 with
        word_intervals_ms := word_intervals_ms total_ms st.word_spans.length,
        next_interval_idx := 0,
        last_hold := last_hold_ms total_ms st.word_spans.length }

/-- Fire the pending word timer: the handle is consumed, then its callback
runs (`tick`, or `auto_next` for the single-word unit). -/
def fire (st : State) : State :=
  match st.word_timer with
  | none => st
  | some (WordCb.tick, _) => tick { st with word_timer := none }
  | some (WordCb.advance, _) => { st with word_timer := none, advanced := true }

/-- Run the uninterrupted timer chain: fire pending word timers until none is
pending (the unit is then holding on its last word or has advanced). -/
def runChain : Nat → State → State
  | 0, st => st
  | fuel + 1, st =>
    match st.word_timer with
    | none => st
    | some _ => runChain fuel (fire st)

theorem runChain_none {fuel : Nat} {st : State} (h : st.word_timer = none) :
    runChain fuel st = st := by
  cases fuel <;> simp [runChain, h]

theorem runChain_step {fuel : Nat} {st : State} {c : WordCb × ℤ}
    (h : st.word_timer = some c) :
    runChain (fuel + 1) st = runChain fuel (fire st) := by
  simp [runChain, h]

/-- Loop invariant for the transition phase of an uninterrupted chain of a
unit with `n ≥ 2` word spans: with `m` ticks left to fire
(`next_interval_idx + m = n - 1`) and the cursor in lockstep with
`next_interval_idx`, running the chain appends exactly the cursor positions
`next_interval_idx + 1, …, n - 1` to the highlight log and ends holding on
the last word. -/
theorem runChain_ticks {n : Nat} (hn : 2 ≤ n) :
    ∀ (m fuel : Nat) (st : State),
      1 ≤ m → m ≤ fuel →
      st.paused = false →
      st.word_spans.length = n →
      st.word_intervals_ms.length = n - 1 →
      st.next_interval_idx + m = n - 1 →
      st.current_word_index = (st.next_interval_idx : ℤ) →
      (∃ d, st.word_timer = some (WordCb.tick, d)) →
      (runChain fuel st).highlights
          = st.highlights
            ++ (List.range m).map (fun (j : Nat) => ((st.next_interval_idx + 1 + j : Nat) : ℤ))
        ∧ (runChain fuel st).word_timer = none
        ∧ (runChain fuel st).hold_timer = some (max 1 st.last_hold)
        ∧ (runChain fuel st).advanced = st.advanced := by
  intro m
  induction m with
  | zero => intro fuel st hm; exact absurd hm (by omega)
  | succ m ih =>
    intro fuel st _ hfuel hp hlen hilen hidx hcur hwt
    obtain ⟨d, hwt⟩ := hwt
    obtain ⟨f, rfl⟩ : ∃ f, fuel = f + 1 := ⟨fuel - 1, by omega⟩
    rw [runChain_step hwt]
    have hfire : fire st = tick { st with word_timer := none } := by
      simp [fire, hwt]
    rw [hfire]
    have hspans_ne : st.word_spans ≠ [] := by
      intro hnil
      rw [hnil] at hlen
      simp at hlen
      omega
    have hcond : st.current_word_index + 1 < (st.word_spans.length : ℤ) := by
      rw [hcur, hlen]
      have : st.next_interval_idx + 1 ≤ n - 1 := by omega
      push_cast
      omega
    have hclamp : clampCursor (st.current_word_index + 1) st.word_spans.length
        = (st.next_interval_idx : ℤ) + 1 := by
      rw [hcur, hlen]
      unfold clampCursor
      have h1 : st.next_interval_idx + 1 ≤ n - 1 := by omega
      have h2 : ((st.next_interval_idx : ℤ) + 1) ≤ (n : ℤ) - 1 := by push_cast; omega
      rw [min_eq_left h2, max_eq_right (by positivity)]
    have htick : tick { st with word_timer := none }
        = schedule_next
            { st with
              word_timer := none,
              current_word_index := (st.next_interval_idx : ℤ) + 1,
              highlights := st.highlights ++ [(st.next_interval_idx : ℤ) + 1],
              next_interval_idx := st.next_interval_idx + 1 } := by
      simp only [tick, highlight_up_to]
      rw [if_neg (by simp [hp]), if_pos (by simpa using hcond), if_neg (by simpa using hspans_ne)]
      simp [hclamp]
    rw [htick]
    by_cases hm0 : m = 0
    · subst hm0
      have hsched : schedule_next
            { st with
              word_timer := none,
              current_word_index := (st.next_interval_idx : ℤ) + 1,
              highlights := st.highlights ++ [(st.next_interval_idx : ℤ) + 1],
              next_interval_idx := st.next_interval_idx + 1 }
          = { st with
              word_timer := none,
              current_word_index := (st.next_interval_idx : ℤ) + 1,
              highlights := st.highlights ++ [(st.next_interval_idx : ℤ) + 1],
              next_interval_idx := st.next_interval_idx + 1,
              hold_timer := some (max 1 st.last_hold) } := by
        simp only [schedule_next]
        rw [if_neg (by simp [hp]), if_pos (by simp [hilen]; omega)]
      rw [hsched, runChain_none (by simp)]
      refine ⟨?_, by simp, by simp, by simp⟩
      rw [show List.range 1 = [0] from rfl]
      simp
    · have hlt : st.next_interval_idx + 1 < n - 1 := by omega
      have hsched : schedule_next
            { st with
              word_timer := none,
              current_word_index := (st.next_interval_idx : ℤ) + 1,
              highlights := st.highlights ++ [(st.next_interval_idx : ℤ) + 1],
              next_interval_idx := st.next_interval_idx + 1 }
          = { st with
              word_timer :=
                some (WordCb.tick,
                  max 1 (st.word_intervals_ms.getD (st.next_interval_idx + 1) 0)),
              current_word_index := (st.next_interval_idx : ℤ) + 1,
              highlights := st.highlights ++ [(st.next_interval_idx : ℤ) + 1],
              next_interval_idx := st.next_interval_idx + 1 } := by
        simp only [schedule_next]
        rw [if_neg (by simp [hp]), if_neg (by simp [hilen]; omega)]
      rw [hsched]
      have := ih f
        { st with
          word_timer :=
            some (WordCb.tick,
              max 1 (st.word_intervals_ms.getD (st.next_interval_idx + 1) 0)),
          current_word_index := (st.next_interval_idx : ℤ) + 1,
          highlights := st.highlights ++ [(st.next_interval_idx : ℤ) + 1],
          next_interval_idx := st.next_interval_idx + 1 }
        (by omega) (by omega) (by simp [hp]) (by simpa using hlen)
        (by simpa using hilen) (by simp; omega) (by push_cast; simp)
        ⟨_, rfl⟩
      obtain ⟨hh, hw, hho, ha⟩ := this
      refine ⟨?_, by simpa using hw, by simpa using hho, by simpa using ha⟩
      have hlist : (List.range (m + 1)).map
            (fun (j : Nat) => ((st.next_interval_idx + 1 + j : Nat) : ℤ))
          = ((st.next_interval_idx : ℤ) + 1)
            :: (List.range m).map
                (fun (j : Nat) => ((st.next_interval_idx + 1 + 1 + j : Nat) : ℤ)) := by
        rw [List.range_succ_eq_map, List.map_cons, List.map_map]
        refine congrArg₂ List.cons ?_ ?_
        · push_cast; ring
        · refine List.map_congr_left ?_
          intro j _
          simp only [Function.comp_apply]
          push_cast
          ring
      rw [hh, hlist]
      simp only [List.append_assoc, List.singleton_append]

theorem clampCursor_bounds (i : ℤ) {n : Nat} (hn : 1 ≤ n) :
    0 ≤ clampCursor i n ∧ clampCursor i n < (n : ℤ) := by
  unfold clampCursor
  have : (1 : ℤ) ≤ (n : ℤ) := by exact_mod_cast hn
  omega

theorem clampCursor_of_le {i : ℤ} {n : Nat} (h0 : 0 ≤ i) (h1 : i ≤ (n : ℤ) - 1) :
    clampCursor i n = i := by
  unfold clampCursor
  omega

end Chain

/-- Claim C3 (amended): for a non-break unit with `N ≥ 1` word spans whose
timer chain runs to completion uninterrupted, if `total_ms > 0` the highlight
cursor visits exactly the `N` positions `0, 1, …, N-1` in strictly increasing
order, each exactly once; in the degenerate case `total_ms ≤ 0` (with `N ≥ 2`)
the cursor instead jumps directly to the last word `N-1`, visiting only that
single position, and the unit advances immediately. -/
theorem C3_cursor_visits (spans : List (Nat × Nat)) (total_ms : ℤ) (fuel : Nat)
    (hne : spans ≠ []) (hfuel : spans.length ≤ fuel) :
    (0 < total_ms →
        (Chain.runChain fuel
            (Chain.start_word_highlighting (Chain.init spans) total_ms)).highlights
          = (List.range spans.length).map (fun (j : Nat) => (j : ℤ)))
      ∧ (total_ms ≤ 0 →
        (Chain.start_word_highlighting (Chain.init spans) total_ms).highlights
            = [(spans.length : ℤ) - 1]
          ∧ (Chain.start_word_highlighting (Chain.init spans) total_ms).advanced
              = true) := by
  have hne' : ¬ (Chain.init spans).word_spans = [] := by simpa [Chain.init] using hne
  have hlen1 : 1 ≤ spans.length := List.length_pos.mpr hne
  constructor
  · intro ht
    have hhl : Chain.highlight_up_to (Chain.init spans) 0
        = { word_spans := spans, current_word_index := 0, word_intervals_ms := [],
            next_interval_idx := 0, last_hold := 0, word_timer := none,
            hold_timer := none, paused := false, advanced := false,
            no_words_branch := false, highlights := [0] } := by
      unfold Chain.highlight_up_to
      rw [if_neg hne']
      have hcl : Chain.clampCursor 0 spans.length = 0 :=
        Chain.clampCursor_of_le le_rfl (by omega)
      simp [Chain.init, hcl]
    by_cases h1 : spans.length = 1
    · have hstart : Chain.start_word_highlighting (Chain.init spans) total_ms
          = { word_spans := spans, current_word_index := 0, word_intervals_ms := [],
              next_interval_idx := 0, last_hold := 0,
              word_timer := some (Chain.WordCb.advance, total_ms),
              hold_timer := none, paused := false, advanced := false,
              no_words_branch := false, highlights := [0] } := by
        unfold Chain.start_word_highlighting
        rw [if_neg hne', if_neg (by omega)]
        rw [if_pos (show (Chain.init spans).word_spans.length = 1 by
          simpa [Chain.init] using h1)]
        rw [hhl]
      obtain ⟨f, rfl⟩ : ∃ f, fuel = f + 1 := ⟨fuel - 1, by omega⟩
      rw [hstart, Chain.runChain_step rfl]
      have hfire : Chain.fire
          { word_spans := spans, current_word_index := 0, word_intervals_ms := [],
            next_interval_idx := 0, last_hold := 0,
            word_timer := some (Chain.WordCb.advance, total_ms),
            hold_timer := none, paused := false, advanced := false,
            no_words_branch := false, highlights := [0] }
          = { word_spans := spans, current_word_index := 0, word_intervals_ms := [],
              next_interval_idx := 0, last_hold := 0, word_timer := none,
              hold_timer := none, paused := false, advanced := true,
              no_words_branch := false, highlights := [0] } := by
        simp [Chain.fire]
      rw [hfire, Chain.runChain_none (by simp)]
      rw [h1]
      show ([0] : List ℤ) = (List.range 1).map (fun (j : Nat) => (j : ℤ))
      rfl
    · have h2 : 2 ≤ spans.length := by omega
      have hstart : Chain.start_word_highlighting (Chain.init spans) total_ms
          = Chain.schedule_next
              { word_spans := spans, current_word_index := 0,
                word_intervals_ms := word_intervals_ms total_ms spans.length,
                next_interval_idx := 0,
                last_hold := last_hold_ms total_ms spans.length,
                word_timer := none, hold_timer := none, paused := false,
                advanced := false, no_words_branch := false, highlights := [0] } := by
        unfold Chain.start_word_highlighting
        rw [if_neg hne', if_neg (by omega)]
        rw [if_neg (show ¬ (Chain.init spans).word_spans.length = 1 by
          simpa [Chain.init] using h1)]
        rw [hhl]
        rfl
      have hsched : Chain.schedule_next
            { word_spans := spans, current_word_index := 0,
              word_intervals_ms := word_intervals_ms total_ms spans.length,
              next_interval_idx := 0,
              last_hold := last_hold_ms total_ms spans.length,
              word_timer := none, hold_timer := none, paused := false,
              advanced := false, no_words_branch := false, highlights := [0] }
          = { word_spans := spans, current_word_index := 0,
              word_intervals_ms := word_intervals_ms total_ms spans.length,
              next_interval_idx := 0,
              last_hold := last_hold_ms total_ms spans.length,
              word_timer := some (Chain.WordCb.tick,
                max 1 ((word_intervals_ms total_ms spans.length).getD 0 0)),
              hold_timer := none, paused := false,
              advanced := false, no_words_branch := false, highlights := [0] } := by
        unfold Chain.schedule_next
        rw [if_neg (by simp)]
        rw [if_neg (show ¬ (word_intervals_ms total_ms spans.length).length ≤ 0 by
          rw [word_intervals_ms_length]; omega)]
      rw [hstart, hsched]
      have hrun := Chain.runChain_ticks h2 (spans.length - 1) fuel
        { word_spans := spans, current_word_index := 0,
          word_intervals_ms := word_intervals_ms total_ms spans.length,
          next_interval_idx := 0,
          last_hold := last_hold_ms total_ms spans.length,
          word_timer := some (Chain.WordCb.tick,
            max 1 ((word_intervals_ms total_ms spans.length).getD 0 0)),
          hold_timer := none, paused := false,
          advanced := false, no_words_branch := false, highlights := [0] }
        (by omega) (by omega) rfl rfl (word_intervals_ms_length total_ms spans.length)
        (by show 0 + (spans.length - 1) = spans.length - 1; omega) rfl ⟨_, rfl⟩
      rw [hrun.1]
      have hrange : (List.range spans.length).map (fun (j : Nat) => (j : ℤ))
          = (0 : ℤ) :: (List.range (spans.length - 1)).map
              (fun (j : Nat) => (((0 : Nat) + 1 + j : Nat) : ℤ)) := by
        obtain ⟨k, hk⟩ : ∃ k, spans.length = k + 1 := ⟨spans.length - 1, by omega⟩
        rw [hk]
        rw [List.range_succ_eq_map, List.map_cons, List.map_map]
        refine congrArg₂ List.cons (by simp) ?_
        simp only [Nat.add_sub_cancel]
        refine List.map_congr_left ?_
        intro j _
        simp only [Function.comp_apply]
        push_cast
        ring
      rw [hrange]
      rfl
  · intro ht
    have hcl : Chain.clampCursor ((spans.length : ℤ) - 1) spans.length
        = (spans.length : ℤ) - 1 :=
      Chain.clampCursor_of_le (by omega) (by omega)
    have hstart : Chain.start_word_highlighting (Chain.init spans) total_ms
        = { word_spans := spans, current_word_index := (spans.length : ℤ) - 1,
            word_intervals_ms := [], next_interval_idx := 0, last_hold := 0,
            word_timer := none, hold_timer := none, paused := false,
            advanced := true, no_words_branch := false,
            highlights := [(spans.length : ℤ) - 1] } := by
      unfold Chain.start_word_highlighting
      rw [if_neg hne', if_pos ht]
      unfold Chain.highlight_up_to
      rw [if_neg hne']
      simp [Chain.init, hcl]
    rw [hstart]
    exact ⟨rfl, rfl⟩

/-- Counterexample input for claim C3 as stated: a two-word unit with
`total_ms = 0` visits only the single cursor position `1`, not the two
positions `0, 1` claimed for the `total_ms ≤ 0` degenerate case. -/
theorem C3_counterexample :
    (Chain.start_word_highlighting (Chain.init [(0, 1), (2, 3)]) 0).highlights = [1]
      ∧ ((Chain.start_word_highlighting (Chain.init [(0, 1), (2, 3)]) 0).highlights
          ≠ [0, 1]) := by
  constructor <;> decide

/-- Witness for C3 (amended) at a concrete three-word unit. -/
theorem C3_cursor_visits_witness :
    ([(0, 1), (2, 4), (5, 9)] : List (Nat × Nat)) ≠ [] ∧ (3 : Nat) ≤ 5 ∧ (0 : ℤ) < 10
      ∧ (Chain.runChain 5
            (Chain.start_word_highlighting (Chain.init [(0, 1), (2, 4), (5, 9)]) 10)).highlights
          = (List.range 3).map (fun (j : Nat) => (j : ℤ)) :=
  ⟨by decide, by decide, by decide,
    (C3_cursor_visits [(0, 1), (2, 4), (5, 9)] 10 5 (by decide) (by decide)).1 (by decide)⟩

/-- Claim C8: `_highlight_up_to` clamps any integer cursor index into
`[0, N-1]` before indexing a non-empty span list, so both span reads succeed
(never out of bounds, never a failure); and a `tick` whose advanced index
would fall outside the span list finalizes the unit (clears the word timer and
schedules the advance-to-next-unit timer). -/
theorem C8_clamp_and_finalize :
    (∀ (spans : List (Nat × Nat)) (i : ℤ), spans ≠ [] →
        0 ≤ Chain.clampCursor i spans.length
          ∧ Chain.clampCursor i spans.length < (spans.length : ℤ)
          ∧ (Chain.highlight_range spans
              (Chain.clampCursor i spans.length).toNat).isSome = true)
      ∧ (∀ st : Chain.State, st.paused = false →
          (st.word_spans.length : ℤ) ≤ st.current_word_index + 1 →
          (Chain.tick st).word_timer = none
            ∧ (Chain.tick st).hold_timer = some 1) := by
  constructor
  · intro spans i hne
    have hlen : 1 ≤ spans.length := List.length_pos.mpr hne
    obtain ⟨h0, h1⟩ := Chain.clampCursor_bounds i hlen
    refine ⟨h0, h1, ?_⟩
    have hlt : (Chain.clampCursor i spans.length).toNat < spans.length := by omega
    unfold Chain.highlight_range
    rw [List.getElem?_eq_getElem (by omega), List.getElem?_eq_getElem hlt]
    rfl
  · intro st hp hge
    unfold Chain.tick
    rw [if_neg (by simp [hp]), if_neg (by omega)]
    exact ⟨rfl, rfl⟩

/-- Witness for C8: a two-span list with cursor index `-7` (and separately
`99`), and a concrete tick whose next index is out of range. -/
theorem C8_clamp_and_finalize_witness :
    (([(0, 2), (3, 5)] : List (Nat × Nat)) ≠ []
        ∧ 0 ≤ Chain.clampCursor (-7) 2 ∧ Chain.clampCursor (-7) 2 < 2
        ∧ (Chain.highlight_range [(0, 2), (3, 5)]
            (Chain.clampCursor (-7) 2).toNat).isSome = true
        ∧ (Chain.highlight_range [(0, 2), (3, 5)]
            (Chain.clampCursor 99 2).toNat).isSome = true)
      ∧ ((Chain.tick
            { word_spans := [(0, 2), (3, 5)], current_word_index := 5,
              word_intervals_ms := [1], next_interval_idx := 0, last_hold := 1,
              word_timer := none, hold_timer := none, paused := false,
              advanced := false, no_words_branch := false,
              highlights := [] }).word_timer = none
        ∧ (Chain.tick
            { word_spans := [(0, 2), (3, 5)], current_word_index := 5,
              word_intervals_ms := [1], next_interval_idx := 0, last_hold := 1,
              word_timer := none, hold_timer := none, paused := false,
              advanced := false, no_words_branch := false,
              highlights := [] }).hold_timer = some 1) :=
  ⟨⟨by decide,
    (C8_clamp_and_finalize.1 [(0, 2), (3, 5)] (-7) (by decide)).1,
    (C8_clamp_and_finalize.1 [(0, 2), (3, 5)] (-7) (by decide)).2.1,
    (C8_clamp_and_finalize.1 [(0, 2), (3, 5)] (-7) (by decide)).2.2,
    (C8_clamp_and_finalize.1 [(0, 2), (3, 5)] 99 (by decide)).2.2⟩,
    C8_clamp_and_finalize.2
      { word_spans := [(0, 2), (3, 5)], current_word_index := 5,
        word_intervals_ms := [1], next_interval_idx := 0, last_hold := 1,
        word_timer := none, hold_timer := none, paused := false,
        advanced := false, no_words_branch := false,
        highlights := [] } rfl (by decide)⟩

/-! ### Claim C4: break tokens in a paragraph -/

/-- Shape of a string matched by the capture group `\d+(\.\d+)?`. -/
def ValidNum (num : List Char) : Prop :=
  (num ≠ [] ∧ ∀ c ∈ num, c.isDigit = true)
    ∨ ∃ d f, num = d ++ '.' :: f ∧ d ≠ [] ∧ f ≠ []
        ∧ (∀ c ∈ d, c.isDigit = true) ∧ (∀ c ∈ f, c.isDigit = true)

/-- The literal text of an inline pause token `[break:num]`. -/
def tokenChars (num : List Char) : List Char :=
  '[' :: 'b' :: 'r' :: 'e' :: 'a' :: 'k' :: ':' :: (num ++ [']'])

theorem takeWhile_append_of_all {p : Char → Bool} :
    ∀ {d : List Char} (r : List Char), (∀ c ∈ d, p c = true) →
      (d ++ r).takeWhile p = d ++ r.takeWhile p := by
  intro d
  induction d with
  | nil => intro r _; simp
  | cons c cs ih =>
    intro r hd
    have hc : p c = true := hd c (by simp)
    simp only [List.cons_append, List.takeWhile_cons, hc, if_true]
    rw [ih r (fun x hx => hd x (by simp [hx]))]

theorem dropWhile_append_of_all {p : Char → Bool} :
    ∀ {d : List Char} (r : List Char), (∀ c ∈ d, p c = true) →
      (d ++ r).dropWhile p = r.dropWhile p := by
  intro d
  induction d with
  | nil => intro r _; simp
  | cons c cs ih =>
    intro r hd
    have hc : p c = true := hd c (by simp)
    simp only [List.cons_append, List.dropWhile_cons, hc, if_true]
    exact ih r (fun x hx => hd x (by simp [hx]))

theorem matchPat_break (r : List Char) :
    matchPat BREAK_PAT ('[' :: 'b' :: 'r' :: 'e' :: 'a' :: 'k' :: ':' :: r) = some r :=
  rfl

/-- `BREAK_TOKEN_RE` matches a well-formed token at the head of the string and
captures exactly its number. -/
theorem tryMatchToken_token (num post : List Char) (h : ValidNum num) :
    tryMatchToken (tokenChars num ++ post) = some (num, post) := by
  have hshape : tokenChars num ++ post
      = '[' :: 'b' :: 'r' :: 'e' :: 'a' :: 'k' :: ':' :: (num ++ ']' :: post) := by
    simp [tokenChars]
  rw [hshape]
  rcases h with ⟨hne, hall⟩ | ⟨d, f, rfl, hd, hf, hdall, hfall⟩
  · have htake : (num ++ ']' :: post).takeWhile Char.isDigit = num := by
      rw [takeWhile_append_of_all _ hall]
      simp [List.takeWhile_cons]
    have hdrop : (num ++ ']' :: post).dropWhile Char.isDigit = ']' :: post := by
      rw [dropWhile_append_of_all _ hall]
      simp [List.dropWhile_cons]
    obtain ⟨c, cs, rfl⟩ := List.exists_cons_of_ne_nil hne
    simp only [tryMatchToken, matchPat_break, htake, hdrop]
  · have hassoc : (d ++ '.' :: f) ++ ']' :: post = d ++ '.' :: (f ++ ']' :: post) := by
      simp
    rw [hassoc]
    have htake : (d ++ '.' :: (f ++ ']' :: post)).takeWhile Char.isDigit = d := by
      rw [takeWhile_append_of_all _ hdall]
      simp [List.takeWhile_cons]
    have hdrop : (d ++ '.' :: (f ++ ']' :: post)).dropWhile Char.isDigit
        = '.' :: (f ++ ']' :: post) := by
      rw [dropWhile_append_of_all _ hdall]
      simp [List.dropWhile_cons]
    have htake2 : (f ++ ']' :: post).takeWhile Char.isDigit = f := by
      rw [takeWhile_append_of_all _ hfall]
      simp [List.takeWhile_cons]
    have hdrop2 : (f ++ ']' :: post).dropWhile Char.isDigit = ']' :: post := by
      rw [dropWhile_append_of_all _ hfall]
      simp [List.dropWhile_cons]
    obtain ⟨c, cs, rfl⟩ := List.exists_cons_of_ne_nil hd
    obtain ⟨e, es, rfl⟩ := List.exists_cons_of_ne_nil hf
    simp only [tryMatchToken, matchPat_break, htake, hdrop, htake2, hdrop2]

/-- A scan position that does not start with `[` starts no token match. -/
theorem tryMatchToken_not_bracket {c : Char} (cs : List Char) (h : c ≠ '[') :
    tryMatchToken (c :: cs) = none := by
  simp [tryMatchToken, matchPat, BREAK_PAT, h]

theorem breakSplitsGo_cons_some {fuel : Nat} {c : Char} {cs num rest : List Char}
    (h : tryMatchToken (c :: cs) = some (num, rest)) :
    breakSplitsGo (fuel + 1) (c :: cs)
      = (([], num) :: (breakSplitsGo fuel rest).1, (breakSplitsGo fuel rest).2) := by
  simp only [breakSplitsGo, h]

theorem breakSplitsGo_cons_none {fuel : Nat} {c : Char} {cs : List Char}
    (h : tryMatchToken (c :: cs) = none) :
    breakSplitsGo (fuel + 1) (c :: cs)
      = match breakSplitsGo fuel cs with
        | ([], tail) => ([], c :: tail)
        | ((b, numb) :: ms, tail) => ((c :: b, numb) :: ms, tail) := by
  simp only [breakSplitsGo, h]

/-- The finditer scan of a paragraph `pre ++ [break:num] ++ post`, where `pre`
contains no `[`, yields the token as its first match with `pre` as the text
before it. -/
theorem breakSplitsGo_token :
    ∀ (pre : List Char) (fuel : Nat) (num post : List Char),
      ValidNum num → '[' ∉ pre →
      (pre ++ tokenChars num ++ post).length ≤ fuel →
      ∃ ms tail, breakSplitsGo fuel (pre ++ tokenChars num ++ post)
          = ((pre, num) :: ms, tail) := by
  intro pre
  induction pre with
  | nil =>
    intro fuel num post hnum _ hfuel
    obtain ⟨f, rfl⟩ : ∃ f, fuel = f + 1 := by
      refine ⟨fuel - 1, ?_⟩
      simp only [List.nil_append, List.length_append, tokenChars] at hfuel
      simp only [List.length_cons] at hfuel
      omega
    simp only [List.nil_append]
    have hshape : tokenChars num ++ post
        = '[' :: ('b' :: 'r' :: 'e' :: 'a' :: 'k' :: ':' :: (num ++ ']' :: post)) := by
      simp [tokenChars]
    have hmatch : tryMatchToken
        ('[' :: ('b' :: 'r' :: 'e' :: 'a' :: 'k' :: ':' :: (num ++ ']' :: post)))
        = some (num, post) := by
      rw [← hshape]
      exact tryMatchToken_token num post hnum
    rw [hshape, breakSplitsGo_cons_some hmatch]
    exact ⟨(breakSplitsGo f post).1, (breakSplitsGo f post).2, rfl⟩
  | cons c pre ih =>
    intro fuel num post hnum hpre hfuel
    obtain ⟨f, rfl⟩ : ∃ f, fuel = f + 1 := by
      refine ⟨fuel - 1, ?_⟩
      simp only [List.cons_append, List.length_cons] at hfuel
      omega
    have hc : c ≠ '[' := by
      intro hcc
      exact hpre (by simp [hcc])
    have hnone : tryMatchToken (c :: (pre ++ tokenChars num ++ post)) = none :=
      tryMatchToken_not_bracket _ hc
    have hpre' : '[' ∉ pre := fun hx => hpre (by simp [hx])
    have hfuel' : (pre ++ tokenChars num ++ post).length ≤ f := by
      simp only [List.cons_append, List.length_cons] at hfuel
      simp only [List.length_append]
      simp only [List.length_append] at hfuel
      omega
    obtain ⟨ms, tail, hms⟩ := ih f num post hnum hpre' hfuel'
    simp only [List.cons_append]
    rw [breakSplitsGo_cons_none hnone, hms]
    exact ⟨ms, tail, rfl⟩

theorem parseDec_nonneg (num : List Char) : 0 ≤ parseDec num := by
  unfold parseDec
  positivity

theorem pyTrunc_of_nonneg {q : ℚ} (h : 0 ≤ q) : pyTrunc q = ⌊q⌋ := by
  unfold pyTrunc
  rw [if_neg (not_lt.mpr h)]

theorem breakOverride_eq_floor (num : List Char) :
    breakOverride num = ⌊parseDec num * 1000⌋ :=
  pyTrunc_of_nonneg (mul_nonneg (parseDec_nonneg num) (by norm_num))

/-- Every token match found by the scan of a paragraph contributes its break
unit to the units the paragraph expands to. -/
theorem expandPara_token_mem (para : List Char) :
    ∀ bn ∈ (breakSplits para).1,
      (breakText bn.2, some (breakOverride bn.2)) ∈ expandPara para := by
  intro bn hbn
  unfold expandPara
  rw [if_neg (by intro hms; rw [hms] at hbn; exact absurd hbn (List.not_mem_nil bn))]
  refine List.mem_append.mpr (Or.inl ?_)
  refine List.mem_flatMap.mpr ⟨bn, hbn, ?_⟩
  exact List.mem_append.mpr (Or.inr (List.mem_singleton.mpr rfl))

/-- Conversely, every unit a paragraph expands to that carries a non-`None`
override is the break unit of one of the paragraph's token matches. -/
theorem expandPara_override_src (para : List Char) :
    ∀ u ∈ expandPara para, u.2 ≠ none →
      ∃ bn ∈ (breakSplits para).1,
        u.1 = breakText bn.2 ∧ u.2 = some (breakOverride bn.2) := by
  intro u hu hne
  unfold expandPara at hu
  by_cases hms : (breakSplits para).1 = []
  · rw [if_pos hms] at hu
    simp only [List.mem_singleton] at hu
    subst hu
    exact absurd rfl hne
  · rw [if_neg hms] at hu
    rw [List.mem_append] at hu
    rcases hu with hu | hu
    · rw [List.mem_flatMap] at hu
      obtain ⟨bn, hbn, hu⟩ := hu
      rw [List.mem_append] at hu
      rcases hu with hu | hu
      · by_cases hg : bn.1 ≠ [] ∧ strip bn.1 ≠ []
        · rw [if_pos hg] at hu
          simp only [List.mem_singleton] at hu
          subst hu
          exact absurd rfl hne
        · rw [if_neg hg] at hu
          simp at hu
      · simp only [List.mem_singleton] at hu
        subst hu
        exact ⟨bn, hbn, rfl, rfl⟩
    · by_cases hg : (breakSplits para).2 ≠ [] ∧ strip (breakSplits para).2 ≠ []
      · rw [if_pos hg] at hu
        simp only [List.mem_singleton] at hu
        subst hu
        exact absurd rfl hne
      · rw [if_neg hg] at hu
        simp at hu

/-- Claim C4 (amended): every inline pause token `[break:X]` matched in a
paragraph — any match of the case-insensitive token pattern found by the
scan, anywhere in the paragraph, after any prefix (a stray `[` included) and
including second and later tokens — becomes a break unit emitted by the
segmenter for that paragraph, whose override duration is `int(X * 1000)` —
truncation toward zero, i.e. `⌊X * 1000⌋` for the non-negative `X`, not
`round(X * 1000)` — and whose display text is `"Break (Y s)"` where `Y` is
`X`'s value rendered by `%g` (6 significant digits, trailing zeros stripped,
scientific notation for decimal exponents outside `[-4, 6)`); `Y` equals `X`
without trailing zeros whenever `X` has at most 6 significant digits and is
in fixed-notation range. -/
theorem C4_break_token_unit (para : List Char) :
    ∀ bn ∈ (breakSplits para).1,
      (breakText bn.2, some (breakOverride bn.2)) ∈ expandPara para
        ∧ 0 ≤ parseDec bn.2
        ∧ breakOverride bn.2 = ⌊parseDec bn.2 * 1000⌋
        ∧ breakText bn.2
            = "Break (".toList ++ formatG (parseDec bn.2) ++ " s)".toList := by
  intro bn hbn
  exact ⟨expandPara_token_mem para bn hbn, parseDec_nonneg bn.2,
    breakOverride_eq_floor bn.2, rfl⟩

/-- Counterexample input for claim C4 as stated: for `[break:123456.0008999]`
the code emits override `int(123456000.8999) = 123456000`, not
`round(…) = 123456001`, and display text `"Break (123456 s)"` (the `%g`
format rounds to 6 significant digits), not `"Break (123456.0008999 s)"`. -/
theorem C4_counterexample :
    expandPara ("[break:123456.0008999]".toList)
        = [("Break (123456 s)".toList, some (123456000 : ℤ))]
      ∧ round ((parseDec ("123456.0008999".toList)) * 1000) = (123456001 : ℤ)
      ∧ ("Break (123456 s)".toList ≠ "Break (123456.0008999 s)".toList)
      ∧ ((123456000 : ℤ) ≠ 123456001) := by
  exact ⟨by decide, by decide, by decide, by decide⟩

/-- Witness for C4 (amended) at the second token of
`"[break:2] x [break:0.5]"` and at the token behind a stray bracket in
`"a [ b [break:2] c"`. -/
theorem C4_break_token_unit_witness :
    ((" x ".toList, "0.5".toList) ∈ (breakSplits ("[break:2] x [break:0.5]".toList)).1
        ∧ (breakText ("0.5".toList), some (breakOverride ("0.5".toList)))
            ∈ expandPara ("[break:2] x [break:0.5]".toList)
        ∧ 0 ≤ parseDec ("0.5".toList)
        ∧ breakOverride ("0.5".toList) = ⌊parseDec ("0.5".toList) * 1000⌋
        ∧ breakText ("0.5".toList)
            = "Break (".toList ++ formatG (parseDec ("0.5".toList)) ++ " s)".toList)
      ∧ (("a [ b ".toList, "2".toList) ∈ (breakSplits ("a [ b [break:2] c".toList)).1
        ∧ (breakText ("2".toList), some (breakOverride ("2".toList)))
            ∈ expandPara ("a [ b [break:2] c".toList)
        ∧ 0 ≤ parseDec ("2".toList)
        ∧ breakOverride ("2".toList) = ⌊parseDec ("2".toList) * 1000⌋
        ∧ breakText ("2".toList)
            = "Break (".toList ++ formatG (parseDec ("2".toList)) ++ " s)".toList) :=
  ⟨⟨by decide,
      C4_break_token_unit ("[break:2] x [break:0.5]".toList)
        (" x ".toList, "0.5".toList) (by decide)⟩,
    ⟨by decide,
      C4_break_token_unit ("a [ b [break:2] c".toList)
        ("a [ b ".toList, "2".toList) (by decide)⟩⟩

/-- Claim C7: segmenting `"A\n\n[break:2] B"` yields exactly the three units
`"A"`, `"Break (2 s)"` with override 2000 ms, and `"B"`, in that order. -/
theorem C7_segment_example :
    expand_breaks (split_paragraphs ("A\n\n[break:2] B".toList))
      = (["A".toList, "Break (2 s)".toList, "B".toList],
         [none, some (2000 : ℤ), none]) := by
  decide

/-- Claim C2 is a code bug: `paragraph_duration_ms` overwrites `spw` with
`60 / wpm` whenever `opts.wpm` is non-zero (the default is 150), so an
explicitly configured positive seconds-per-word is ignored.  This contradicts
the `--spw` help text ("If 0, uses --wpm") and the `parse_args` resolution
step, which derive `spw` from `wpm` only when `spw` is 0.  At the failing
input — explicit `--spw 0.5`, default `--wpm 150`, a five-word paragraph,
`min_sec = 2`, no maximum — the code returns 2000 ms (rate `60/150 = 0.4`),
while the claimed formula with the explicit `spw = 0.5` gives 2500 ms. -/
theorem C2_wpm_overrides_spw :
    paragraph_duration_ms
        { spw := resolve_spw (1/2) 150, wpm := 150, min_sec := 2, max_sec := none }
        ("one two three four five".toList) = 2000
      ∧ c2_claimed_duration_ms (1/2) 2 none 5 = 2500
      ∧ (2000 : ℤ) ≠ 2500 := by
  exact ⟨by decide, by decide, by decide⟩

/-! ### String-invariant helper lemmas for C9 and C10 -/

theorem stripEnd_cons (c : Char) (cs : List Char) :
    stripEnd (c :: cs)
      = match stripEnd cs with
        | [] => if isSpace c then [] else [c]
        | r => c :: r := rfl

theorem stripEnd_idem : ∀ l : List Char, stripEnd (stripEnd l) = stripEnd l
  | [] => rfl
  | c :: cs => by
    rcases hcs : stripEnd cs with _ | ⟨x, xs⟩
    · rw [stripEnd_cons, hcs]
      by_cases hc : isSpace c
      · simp [hc, stripEnd]
      · simp [hc, stripEnd_cons, stripEnd]
    · have ih := stripEnd_idem cs
      rw [hcs] at ih
      rw [stripEnd_cons, hcs]
      show stripEnd (c :: x :: xs) = c :: x :: xs
      rw [stripEnd_cons, ih]

theorem stripEnd_head (c : Char) (cs : List Char) :
    stripEnd (c :: cs) = [] ∨ ∃ r, stripEnd (c :: cs) = c :: r := by
  rw [stripEnd_cons]
  rcases stripEnd cs with _ | ⟨x, xs⟩
  · by_cases hc : isSpace c
    · exact Or.inl (by simp [hc])
    · exact Or.inr ⟨[], by simp [hc]⟩
  · exact Or.inr ⟨x :: xs, rfl⟩

theorem dropWhile_head {p : Char → Bool} :
    ∀ {l : List Char} {c : Char} {cs : List Char},
      l.dropWhile p = c :: cs → p c = false := by
  intro l
  induction l with
  | nil => intro c cs h; simp at h
  | cons x xs ih =>
    intro c cs h
    by_cases hx : p x
    · rw [List.dropWhile_cons, if_pos hx] at h
      exact ih h
    · rw [List.dropWhile_cons, if_neg hx] at h
      simp only [List.cons.injEq] at h
      obtain ⟨rfl, -⟩ := h
      exact Bool.eq_false_iff.mpr hx

theorem strip_head_not_space {l : List Char} {c : Char} {cs : List Char}
    (h : strip l = c :: cs) : isSpace c = false := by
  unfold strip stripStart at h
  rcases hd : l.dropWhile isSpace with _ | ⟨x, xs⟩
  · rw [hd] at h
    simp [stripEnd] at h
  · rw [hd] at h
    rcases stripEnd_head x xs with h0 | ⟨r, hr⟩
    · rw [h0] at h
      exact absurd h (by simp)
    · rw [hr] at h
      simp only [List.cons.injEq] at h
      obtain ⟨rfl, -⟩ := h
      exact dropWhile_head hd

theorem strip_idem (l : List Char) : strip (strip l) = strip l := by
  rcases hs : strip l with _ | ⟨c, cs⟩
  · rfl
  · have hc : isSpace c = false := strip_head_not_space hs
    have hse : stripEnd (c :: cs) = c :: cs := by
      rw [← hs]
      unfold strip
      exact stripEnd_idem _
    unfold strip stripStart
    rw [List.dropWhile_cons, if_neg (by simp [hc]), hse]

theorem stripEnd_append_last {c : Char} (hc : isSpace c = false) :
    ∀ l : List Char, stripEnd (l ++ [c]) = l ++ [c] := by
  intro l
  induction l with
  | nil => simp [stripEnd, hc]
  | cons x xs ih =>
    rw [List.cons_append, stripEnd_cons, ih]
    have : xs ++ [c] ≠ [] := by simp
    obtain ⟨y, ys, hy⟩ := List.exists_cons_of_ne_nil this
    rw [hy]

theorem strip_of_ends {l : List Char} {a b : Char} {mid : List Char}
    (hshape : l = (a :: mid) ++ [b]) (ha : isSpace a = false) (hb : isSpace b = false) :
    strip l = l := by
  subst hshape
  unfold strip stripStart
  rw [List.cons_append, List.dropWhile_cons, if_neg (by simp [ha]), ← List.cons_append]
  exact stripEnd_append_last hb _

theorem startsWithCh_append (pat r : List Char) :
    startsWithCh pat (pat ++ r) = true := by
  induction pat with
  | nil => rfl
  | cons c cs ih => simp [startsWithCh, ih]

theorem breakText_shape (num : List Char) :
    breakText num
      = 'B' :: ("reak (".toList ++ formatG (parseDec num) ++ " s".toList) ++ [')'] := by
  unfold breakText
  simp

theorem strip_breakText (num : List Char) : strip (breakText num) = breakText num :=
  strip_of_ends (breakText_shape num) (by decide) (by decide)

theorem breakText_ne_nil (num : List Char) : breakText num ≠ [] := by
  rw [breakText_shape]
  simp

theorem is_break_breakText (num : List Char) (v : ℤ) :
    _is_break_paragraph (breakText num) (some v) = true := by
  unfold _is_break_paragraph
  rw [strip_breakText]
  have hlow : lower (breakText num)
      = "break (".toList
        ++ (lower (formatG (parseDec num)) ++ lower (" s)".toList)) := by
    unfold breakText lower
    rw [List.map_append, List.map_append, List.append_assoc]
    rfl
  rw [hlow, startsWithCh_append]
  rfl

theorem is_break_none (t : List Char) : _is_break_paragraph t none = false := by
  simp [_is_break_paragraph]

/-- Per-paragraph invariants of `expand_breaks` under a pre-stripped,
non-empty input paragraph. -/
theorem expandPara_unit_inv {p : List Char} (hp : p ≠ []) (hps : strip p = p) :
    ∀ u ∈ expandPara p,
      u.1 ≠ [] ∧ strip u.1 = u.1
        ∧ (_is_break_paragraph u.1 u.2 = true ↔ u.2 ≠ none) := by
  intro u hu
  unfold expandPara at hu
  by_cases hms : (breakSplits p).1 = []
  · rw [if_pos hms] at hu
    simp only [List.mem_singleton] at hu
    subst hu
    exact ⟨hp, hps, by simp [is_break_none]⟩
  · rw [if_neg hms] at hu
    rw [List.mem_append] at hu
    rcases hu with hu | hu
    · rw [List.mem_flatMap] at hu
      obtain ⟨bn, -, hu⟩ := hu
      rw [List.mem_append] at hu
      rcases hu with hu | hu
      · by_cases hg : bn.1 ≠ [] ∧ strip bn.1 ≠ []
        · rw [if_pos hg] at hu
          simp only [List.mem_singleton] at hu
          subst hu
          exact ⟨hg.2, strip_idem _, by simp [is_break_none]⟩
        · rw [if_neg hg] at hu
          simp at hu
      · simp only [List.mem_singleton] at hu
        subst hu
        exact ⟨breakText_ne_nil _, strip_breakText _, by simp [is_break_breakText]⟩
    · by_cases hg : (breakSplits p).2 ≠ [] ∧ strip (breakSplits p).2 ≠ []
      · rw [if_pos hg] at hu
        simp only [List.mem_singleton] at hu
        subst hu
        exact ⟨hg.2, strip_idem _, by simp [is_break_none]⟩
      · rw [if_neg hg] at hu
        simp at hu

/-- Claim C9 (amended): for every input paragraph list whose entries are
non-empty and already whitespace-stripped (as `split_paragraphs` produces),
`expand_breaks` returns two lists of equal length; every text entry is
non-empty and equal to its own stripped form; the override entry is
non-`None` exactly for the units generated from `[break:X]` tokens (every
unit with a non-`None` override is the break unit of a token match of one of
the input paragraphs, and every token match of an input paragraph
contributes its break unit to the output); and a unit is classified as a
break by `_is_break_paragraph` iff its override entry is non-`None` (so a
paragraph whose text begins with `"Break ("` but carries no override is not a
break unit).  For unrestricted inputs the paragraph-passthrough branch copies
the paragraph verbatim, so an unstripped or empty entry violates the text
invariant (see the counterexample). -/
theorem C9_expand_invariants (paragraphs : List (List Char))
    (h : ∀ p ∈ paragraphs, p ≠ [] ∧ strip p = p) :
    (expand_breaks paragraphs).1.length = (expand_breaks paragraphs).2.length
      ∧ (∀ u ∈ (expand_breaks paragraphs).1.zip (expand_breaks paragraphs).2,
          u.1 ≠ [] ∧ strip u.1 = u.1
            ∧ (_is_break_paragraph u.1 u.2 = true ↔ u.2 ≠ none)
            ∧ (u.2 ≠ none → ∃ p ∈ paragraphs, ∃ bn ∈ (breakSplits p).1,
                u.1 = breakText bn.2 ∧ u.2 = some (breakOverride bn.2)))
      ∧ ∀ p ∈ paragraphs, ∀ bn ∈ (breakSplits p).1,
          (breakText bn.2, some (breakOverride bn.2))
            ∈ (expand_breaks paragraphs).1.zip (expand_breaks paragraphs).2 := by
  have hzip : (expand_breaks paragraphs).1.zip (expand_breaks paragraphs).2
      = paragraphs.flatMap expandPara := by
    unfold expand_breaks
    rw [List.zip_map']
    simp
  refine ⟨by simp [expand_breaks], ?_, ?_⟩
  · intro u hu
    rw [hzip, List.mem_flatMap] at hu
    obtain ⟨p, hpmem, hup⟩ := hu
    obtain ⟨h1, h2, h3⟩ := expandPara_unit_inv (h p hpmem).1 (h p hpmem).2 u hup
    refine ⟨h1, h2, h3, ?_⟩
    intro hne
    obtain ⟨bn, hbn, he1, he2⟩ := expandPara_override_src p u hup hne
    exact ⟨p, hpmem, bn, hbn, he1, he2⟩
  · intro p hpmem bn hbn
    rw [hzip, List.mem_flatMap]
    exact ⟨p, hpmem, expandPara_token_mem p bn hbn⟩

/-- Counterexample input for claim C9 as stated (over every input list): for
the unstripped input paragraph `" a "`, `expand_breaks` copies the text
verbatim, so the text entry is not equal to its own stripped form. -/
theorem C9_counterexample :
    expand_breaks [" a ".toList] = ([" a ".toList], [none])
      ∧ strip (" a ".toList) ≠ " a ".toList := by
  exact ⟨by decide, by decide⟩

/-- Witness for C9 (amended) on a concrete stripped paragraph list containing
a token paragraph, a plain paragraph and a decoy starting with `Break (`. -/
theorem C9_expand_invariants_witness :
    (∀ p ∈ [("ok then".toList), ("[break:2]".toList), ("Break (fake)".toList)],
        p ≠ [] ∧ strip p = p)
      ∧ ((expand_breaks [("ok then".toList), ("[break:2]".toList),
            ("Break (fake)".toList)]).1.length
          = (expand_breaks [("ok then".toList), ("[break:2]".toList),
            ("Break (fake)".toList)]).2.length
        ∧ (∀ u ∈ (expand_breaks [("ok then".toList), ("[break:2]".toList),
              ("Break (fake)".toList)]).1.zip
            (expand_breaks [("ok then".toList), ("[break:2]".toList),
              ("Break (fake)".toList)]).2,
            u.1 ≠ [] ∧ strip u.1 = u.1
              ∧ (_is_break_paragraph u.1 u.2 = true ↔ u.2 ≠ none)
              ∧ (u.2 ≠ none → ∃ p ∈ [("ok then".toList), ("[break:2]".toList),
                    ("Break (fake)".toList)], ∃ bn ∈ (breakSplits p).1,
                  u.1 = breakText bn.2 ∧ u.2 = some (breakOverride bn.2)))
        ∧ ∀ p ∈ [("ok then".toList), ("[break:2]".toList),
              ("Break (fake)".toList)], ∀ bn ∈ (breakSplits p).1,
            (breakText bn.2, some (breakOverride bn.2))
              ∈ (expand_breaks [("ok then".toList), ("[break:2]".toList),
                  ("Break (fake)".toList)]).1.zip
                (expand_breaks [("ok then".toList), ("[break:2]".toList),
                  ("Break (fake)".toList)]).2) :=
  ⟨by decide,
    C9_expand_invariants
      [("ok then".toList), ("[break:2]".toList), ("Break (fake)".toList)]
      (by decide)⟩

/-! ### Claim C10: segmenter output always yields word spans -/

theorem split_paragraphs_inv (text : List Char) :
    ∀ p ∈ split_paragraphs text, p ≠ [] ∧ strip p = p := by
  intro p hp
  unfold split_paragraphs at hp
  rw [List.mem_filter] at hp
  obtain ⟨hmem, hne⟩ := hp
  rw [List.mem_map] at hmem
  obtain ⟨q, -, rfl⟩ := hmem
  exact ⟨by simpa using hne, strip_idem q⟩

theorem spansGo_some_ne_nil : ∀ (l : List Char) (i st : Nat),
    spansGo l i (some st) ≠ [] := by
  intro l
  induction l with
  | nil => intro i st; simp [spansGo]
  | cons c cs ih =>
    intro i st
    by_cases hc : isSpace c
    · simp [spansGo, hc]
    · simp only [spansGo, hc]
      simp only [Bool.false_eq_true, if_false]
      exact ih (i + 1) st

theorem wordSpans_ne_nil_of_head {c : Char} {cs : List Char}
    (hc : isSpace c = false) : wordSpans (c :: cs) ≠ [] := by
  unfold wordSpans
  rw [show spansGo (c :: cs) 0 none = spansGo cs 1 (some 0) by
    simp [spansGo, hc]]
  exact spansGo_some_ne_nil cs 1 0

theorem highlight_no_words_branch (st : Chain.State) (i : ℤ) :
    (Chain.highlight_up_to st i).no_words_branch = st.no_words_branch := by
  unfold Chain.highlight_up_to
  split <;> rfl

theorem schedule_no_words_branch (st : Chain.State) :
    (Chain.schedule_next st).no_words_branch = st.no_words_branch := by
  unfold Chain.schedule_next
  split_ifs <;> rfl

theorem start_no_words_branch {spans : List (Nat × Nat)} (hne : spans ≠ [])
    (t : ℤ) :
    (Chain.start_word_highlighting (Chain.init spans) t).no_words_branch
      = false := by
  unfold Chain.start_word_highlighting
  rw [if_neg (by simpa [Chain.init] using hne)]
  by_cases h0 : t ≤ 0
  · rw [if_pos h0]
    show (Chain.highlight_up_to (Chain.init spans) _).no_words_branch = false
    rw [highlight_no_words_branch]
    rfl
  · rw [if_neg h0]
    by_cases h1 : (Chain.init spans).word_spans.length = 1
    · rw [if_pos h1]
      show (Chain.highlight_up_to (Chain.init spans) 0).no_words_branch = false
      rw [highlight_no_words_branch]
      rfl
    · rw [if_neg h1]
      rw [schedule_no_words_branch]
      show (Chain.highlight_up_to (Chain.init spans) 0).no_words_branch = false
      rw [highlight_no_words_branch]
      rfl

/-- Claim C10: every non-break unit produced by the segmenter pipeline
(`split_paragraphs` then `expand_breaks`) contains a non-whitespace character,
so its word-span list built at render time is non-empty and the scheduler
branch for empty `word_spans` (schedule a bare advance timer, no highlighting)
is never taken for such a unit. -/
theorem C10_nonbreak_units_have_words (text : List Char) :
    ∀ u ∈ (split_paragraphs text).flatMap expandPara,
      _is_break_paragraph u.1 u.2 = false →
      wordSpans u.1 ≠ []
        ∧ ∀ total_ms : ℤ,
            (Chain.start_word_highlighting (Chain.init (wordSpans u.1))
              total_ms).no_words_branch = false := by
  intro u hu _hnb
  rw [List.mem_flatMap] at hu
  obtain ⟨p, hpmem, hu⟩ := hu
  obtain ⟨hpne, hpstrip⟩ := split_paragraphs_inv text p hpmem
  have htext := expandPara_unit_inv hpne hpstrip u hu
  obtain ⟨c, cs, hc⟩ := List.exists_cons_of_ne_nil htext.1
  have hcns : isSpace c = false := by
    have hs := htext.2.1
    rw [hc] at hs
    exact strip_head_not_space hs
  have hws : wordSpans u.1 ≠ [] := by
    rw [hc]
    exact wordSpans_ne_nil_of_head hcns
  exact ⟨hws, fun t => start_no_words_branch hws t⟩

/-- Witness for C10 at a concrete two-paragraph input. -/
theorem C10_nonbreak_units_have_words_witness :
    (("hello world".toList, (none : Option ℤ))
        ∈ (split_paragraphs ("hello world\n\nsecond".toList)).flatMap expandPara)
      ∧ _is_break_paragraph ("hello world".toList) none = false
      ∧ wordSpans ("hello world".toList) ≠ []
      ∧ (Chain.start_word_highlighting
          (Chain.init (wordSpans ("hello world".toList))) 0).no_words_branch
          = false :=
  ⟨by decide, by decide,
    (C10_nonbreak_units_have_words ("hello world\n\nsecond".toList)
      ("hello world".toList, none) (by decide) (by decide)).1,
    (C10_nonbreak_units_have_words ("hello world\n\nsecond".toList)
      ("hello world".toList, none) (by decide) (by decide)).2 0⟩

/-! ### Playback controller model (`Ctrl`)

`show_current`, `auto_next`, `next_manual`, `prev_manual`, `restart` and
`cancel_timer`.  `root.after` handles are modelled as fresh counters drawn
from `next_fresh` (so "no timer from before the call survives" is "every
pending handle is `≥` the old `next_fresh`").  `_start_word_highlighting` and
`auto_next` are inlined at their call sites inside `show_current`; the `fuel`
parameter bounds only the synchronous auto-advance recursion that occurs when
a unit's computed duration is `≤ 0` (each synchronous advance consumes one
unit of fuel), and is not consulted on any other path.  The status label is
UI-only and is modelled by the `done` flag alone. -/

namespace Ctrl

/-- Controller state: the `Teleprompter` object's fields used by playback. -/
structure St where
  paragraphs : List (List Char)
  duration_overrides_ms : List (Option ℤ)
  opts : Opts
  idx : Nat
  paused : Bool
  timer_id : Option (Nat × ℤ)
  word_timer_id : Option (Nat × ℤ)
  word_spans : List (Nat × Nat)
  current_word_index : ℤ
  word_intervals_ms : List ℤ
  next_interval_idx : Nat
  last_hold : ℤ
  done : Bool
  next_fresh : Nat
  deriving DecidableEq

/-- `self.paragraphs[self.idx]` (the in-range access of the source). -/
def currentPara (st : St) : List Char := st.paragraphs.getD st.idx []

/-- `override = self.duration_overrides_ms[self.idx] if 0 <= idx < len else None`. -/
def ovAt (st : St) : Option ℤ := st.duration_overrides_ms.getD st.idx none

/-- `total_ms = override if override is not None else self.paragraph_duration_ms(p)`. -/
def totalOf (st : St) : ℤ :=
  (ovAt st).getD (paragraph_duration_ms st.opts (currentPara st))

/-- `cancel_timer`: cancel both pending timers (cancelling an absent or
already-fired handle is a no-op). -/
def cancel_timer (st : St) : St := { st with timer_id := none, word_timer_id := none }

/-- `root.after(delay, auto_next)` stored in `timer_id`. -/
def setTimer (st : St) (delay : ℤ) : St :=
  { st with timer_id := some (st.next_fresh, delay), next_fresh := st.next_fresh + 1 }

/-- `root.after(delay, cb)` stored in `word_timer_id`. -/
def setWordTimer (st : St) (delay : ℤ) : St :=
  { st with word_timer_id := some (st.next_fresh, delay), next_fresh := st.next_fresh + 1 }

/-- `_render_paragraph`: reset highlight progress and rebuild word spans
(empty for break units). -/
def render (st : St) : St :=
  { st with
    word_spans :=
      if _is_break_paragraph (currentPara st) (ovAt st) then []
      else wordSpans (currentPara st),
    current_word_index := -1 }

/-- `_highlight_up_to` on the controller state. -/
def highlightC (st : St) (i : ℤ) : St :=
  if st.word_spans = [] then st
  else { st with current_word_index := Chain.clampCursor i st.word_spans.length }

/-- The interval-table fields set by `_start_word_highlighting` before its
first `schedule_next()`. -/
def chainFields (st : St) (total : ℤ) : St :=
  { st with
    word_intervals_ms := word_intervals_ms total st.word_spans.length,
    next_interval_idx := 0,
    last_hold := last_hold_ms total st.word_spans.length }

/-- The first, synchronous invocation of the `schedule_next` closure. -/
def schedule_next_sync (st : St) : St :=
  if st.paused then st
  else if st.word_intervals_ms.length ≤ st.next_interval_idx then
    setTimer { st with word_timer_id := none } (max 1 st.last_hold)
  else
    setWordTimer st (max 1 (st.word_intervals_ms.getD st.next_interval_idx 0))

/-- `show_current(start_timer)`, with `_start_word_highlighting` and
`auto_next` inlined at their single call sites.  The `paused` flag is not
changed by rendering or cancelling, so testing it up front is equivalent to
the source's test after them. -/
def show_current : Nat → Bool → St → St
  | fuel, start_timer, st0 =>
    if st0.paragraphs = [] then st0
    else if start_timer && !st0.paused then
      if _is_break_paragraph (currentPara st0) (ovAt st0) then
        setTimer (cancel_timer (render st0)) (totalOf st0)
      else if wordSpans (currentPara st0) = [] then
        setTimer (cancel_timer (render st0)) (max 0 (totalOf st0))
      else if totalOf st0 ≤ 0 then
        -- auto_next, called synchronously after highlighting the whole unit
        if st0.idx < st0.paragraphs.length - 1 then
          match fuel with
          | 0 =>
            { highlightC (cancel_timer (render st0))
                ((wordSpans (currentPara st0)).length - 1 : Nat) with
              idx := st0.idx + 1 }
          | fuel + 1 =>
            show_current fuel true
              { highlightC (cancel_timer (render st0))
                  ((wordSpans (currentPara st0)).length - 1 : Nat) with
                idx := st0.idx + 1 }
        else
          { cancel_timer (highlightC (cancel_timer (render st0))
              ((wordSpans (currentPara st0)).length - 1 : Nat)) with
            done := true }
      else if (wordSpans (currentPara st0)).length = 1 then
        setWordTimer (highlightC (cancel_timer (render st0)) 0) (totalOf st0)
      else
        schedule_next_sync
          (chainFields (highlightC (cancel_timer (render st0)) 0) (totalOf st0))
    else cancel_timer (render st0)

/-- Clamped index move of `next_manual`. -/
def bump_next (st : St) : St :=
  if st.idx < st.paragraphs.length - 1 then { st with idx := st.idx + 1 } else st

/-- Clamped index move of `prev_manual`. -/
def bump_prev (st : St) : St :=
  if 0 < st.idx then { st with idx := st.idx - 1 } else st

/-- `next_manual`. -/
def next_manual (fuel : Nat) (st : St) : St :=
  show_current fuel (!(bump_next (cancel_timer st)).paused) (bump_next (cancel_timer st))

/-- `prev_manual`. -/
def prev_manual (fuel : Nat) (st : St) : St :=
  show_current fuel (!(bump_prev (cancel_timer st)).paused) (bump_prev (cancel_timer st))

/-- `restart`. -/
def restart (fuel : Nat) (st : St) : St :=
  show_current fuel true { cancel_timer st with idx := 0, paused := false }

/-- Unit `j` starts no synchronous auto-advance: it is a break unit, or it
has no word spans, or its computed duration is positive. -/
def unit_no_sync (st : St) (j : Nat) : Prop :=
  _is_break_paragraph (st.paragraphs.getD j []) (st.duration_overrides_ms.getD j none)
      = true
    ∨ wordSpans (st.paragraphs.getD j []) = []
    ∨ 0 < (st.duration_overrides_ms.getD j none).getD
        (paragraph_duration_ms st.opts (st.paragraphs.getD j []))

/-- Every pending timer handle of `r` was created at or after `st.next_fresh`
(so no timer pending before the call survives into `r`). -/
def timersFresh (r st : St) : Prop :=
  (∀ h d, r.timer_id = some (h, d) → st.next_fresh ≤ h)
    ∧ (∀ h d, r.word_timer_id = some (h, d) → st.next_fresh ≤ h)

theorem highlightC_idx (st : St) (i : ℤ) : (highlightC st i).idx = st.idx := by
  unfold highlightC; split <;> rfl

theorem highlightC_paused (st : St) (i : ℤ) : (highlightC st i).paused = st.paused := by
  unfold highlightC; split <;> rfl

theorem highlightC_timer_id (st : St) (i : ℤ) :
    (highlightC st i).timer_id = st.timer_id := by
  unfold highlightC; split <;> rfl

theorem highlightC_word_timer_id (st : St) (i : ℤ) :
    (highlightC st i).word_timer_id = st.word_timer_id := by
  unfold highlightC; split <;> rfl

theorem highlightC_next_fresh (st : St) (i : ℤ) :
    (highlightC st i).next_fresh = st.next_fresh := by
  unfold highlightC; split <;> rfl

theorem highlightC_word_spans (st : St) (i : ℤ) :
    (highlightC st i).word_spans = st.word_spans := by
  unfold highlightC; split <;> rfl

/-- Behaviour of one `show_current` call when the displayed unit starts no
synchronous auto-advance: the index and pause flag are unchanged, every
pending timer is fresh, a paused or timer-less call leaves no timers and a
reset cursor, a starting call leaves some pending timer, and the word spans
are those rendered for the current unit. -/
theorem show_current_no_sync (fuel : Nat) (start_timer : Bool) (st : St)
    (hT : st.timer_id = none) (hW : st.word_timer_id = none)
    (hns : start_timer = true → st.paused = false → unit_no_sync st st.idx) :
    (show_current fuel start_timer st).idx = st.idx
      ∧ (show_current fuel start_timer st).paused = st.paused
      ∧ timersFresh (show_current fuel start_timer st) st
      ∧ ((start_timer = false ∨ st.paused = true) →
          (show_current fuel start_timer st).timer_id = none
            ∧ (show_current fuel start_timer st).word_timer_id = none
            ∧ (st.paragraphs ≠ [] →
                (show_current fuel start_timer st).current_word_index = -1))
      ∧ (start_timer = true → st.paused = false → st.paragraphs ≠ [] →
          ((show_current fuel start_timer st).timer_id.isSome = true
            ∨ (show_current fuel start_timer st).word_timer_id.isSome = true))
      ∧ (st.paragraphs ≠ [] →
          (show_current fuel start_timer st).word_spans
            = (if _is_break_paragraph (currentPara st) (ovAt st) then []
               else wordSpans (currentPara st))) := by
  unfold show_current
  by_cases hP : st.paragraphs = []
  · rw [if_pos hP]
    exact ⟨rfl, rfl, ⟨fun h d hh => absurd (hT ▸ hh) (by simp),
      fun h d hh => absurd (hW ▸ hh) (by simp)⟩,
      fun _ => ⟨hT, hW, fun hp => absurd hP hp⟩,
      fun _ _ hp => absurd hP hp,
      fun hp => absurd hP hp⟩
  · rw [if_neg hP]
    by_cases hs : start_timer && !st.paused
    · rw [if_pos hs]
      obtain ⟨hst, hpa⟩ : start_timer = true ∧ st.paused = false := by
        constructor <;> [exact (Bool.and_eq_true ..|>.mp hs).1;
          exact Bool.not_eq_true' .. |>.mp (Bool.and_eq_true ..|>.mp hs).2]
      have hnosync := hns hst hpa
      by_cases hbrk : _is_break_paragraph (currentPara st) (ovAt st)
      · rw [if_pos hbrk]
        refine ⟨by simp [setTimer, cancel_timer, render],
          by simp [setTimer, cancel_timer, render], ?_, ?_, ?_, ?_⟩
        · constructor
          · intro h d hh
            simp [setTimer, cancel_timer, render] at hh
            omega
          · intro h d hh
            simp [setTimer, cancel_timer, render] at hh
        · intro hcase
          rcases hcase with hcase | hcase
          · rw [hcase] at hst; exact absurd hst (by simp)
          · rw [hcase] at hpa; exact absurd hpa (by simp)
        · intro _ _ _
          left
          simp [setTimer, cancel_timer, render]
        · intro _
          simp [setTimer, cancel_timer, render, hbrk]
      · rw [if_neg hbrk]
        by_cases hsp : wordSpans (currentPara st) = []
        · rw [if_pos hsp]
          refine ⟨by simp [setTimer, cancel_timer, render],
            by simp [setTimer, cancel_timer, render], ?_, ?_, ?_, ?_⟩
          · constructor
            · intro h d hh
              simp [setTimer, cancel_timer, render] at hh
              omega
            · intro h d hh
              simp [setTimer, cancel_timer, render] at hh
          · intro hcase
            rcases hcase with hcase | hcase
            · rw [hcase] at hst; exact absurd hst (by simp)
            · rw [hcase] at hpa; exact absurd hpa (by simp)
          · intro _ _ _
            left
            simp [setTimer, cancel_timer, render]
          · intro _
            simp [setTimer, cancel_timer, render, hbrk, hsp]
        · rw [if_neg hsp]
          have hpos : 0 < totalOf st := by
            rcases hnosync with hh | hh | hh
            · exact absurd hh (by simpa [currentPara, ovAt] using hbrk)
            · exact absurd hh (by simpa [currentPara] using hsp)
            · simpa [totalOf, currentPara, ovAt] using hh
          rw [if_neg (by omega : ¬ totalOf st ≤ 0)]
          by_cases h1 : (wordSpans (currentPara st)).length = 1
          · rw [if_pos h1]
            refine ⟨?_, ?_, ?_, ?_, ?_, ?_⟩
            · rw [show (setWordTimer (highlightC (cancel_timer (render st)) 0)
                  (totalOf st)).idx
                  = (highlightC (cancel_timer (render st)) 0).idx from rfl,
                highlightC_idx]
              rfl
            · rw [show (setWordTimer (highlightC (cancel_timer (render st)) 0)
                  (totalOf st)).paused
                  = (highlightC (cancel_timer (render st)) 0).paused from rfl,
                highlightC_paused]
              rfl
            · constructor
              · intro h d hh
                rw [show (setWordTimer (highlightC (cancel_timer (render st)) 0)
                    (totalOf st)).timer_id
                    = (highlightC (cancel_timer (render st)) 0).timer_id from rfl,
                  highlightC_timer_id] at hh
                simp [cancel_timer, render] at hh
              · intro h d hh
                simp only [setWordTimer, highlightC_next_fresh] at hh
                simp only [Option.some.injEq, Prod.mk.injEq] at hh
                obtain ⟨hh1, -⟩ := hh
                rw [← hh1]
                simp [cancel_timer, render]
            · intro hcase
              rcases hcase with hcase | hcase
              · rw [hcase] at hst; exact absurd hst (by simp)
              · rw [hcase] at hpa; exact absurd hpa (by simp)
            · intro _ _ _
              right
              simp [setWordTimer]
            · intro _
              rw [show (setWordTimer (highlightC (cancel_timer (render st)) 0)
                  (totalOf st)).word_spans
                  = (highlightC (cancel_timer (render st)) 0).word_spans from rfl,
                highlightC_word_spans]
              simp [cancel_timer, render, hbrk]
          · rw [if_neg h1]
            have hn0 : (wordSpans (currentPara st)).length ≠ 0 := by
              simpa [List.length_eq_zero] using hsp
            have hn2 : 2 ≤ (wordSpans (currentPara st)).length := by omega
            have hsched : schedule_next_sync
                  (chainFields (highlightC (cancel_timer (render st)) 0) (totalOf st))
                = setWordTimer
                    (chainFields (highlightC (cancel_timer (render st)) 0) (totalOf st))
                    (max 1 (((chainFields (highlightC (cancel_timer (render st)) 0)
                        (totalOf st)).word_intervals_ms).getD 0 0)) := by
              unfold schedule_next_sync
              rw [if_neg (by
                simp only [chainFields, highlightC_paused]
                simp [cancel_timer, render, hpa])]
              rw [if_neg (by
                simp only [chainFields, word_intervals_ms_length, highlightC_word_spans]
                simp only [cancel_timer, render, if_neg hbrk]
                omega)]
              rfl
            rw [hsched]
            refine ⟨?_, ?_, ?_, ?_, ?_, ?_⟩
            · rw [show (setWordTimer (chainFields (highlightC (cancel_timer (render st)) 0)
                  (totalOf st)) _).idx
                  = (highlightC (cancel_timer (render st)) 0).idx from rfl,
                highlightC_idx]
              rfl
            · rw [show (setWordTimer (chainFields (highlightC (cancel_timer (render st)) 0)
                  (totalOf st)) _).paused
                  = (highlightC (cancel_timer (render st)) 0).paused from rfl,
                highlightC_paused]
              rfl
            · constructor
              · intro h d hh
                rw [show (setWordTimer (chainFields (highlightC (cancel_timer (render st)) 0)
                    (totalOf st)) _).timer_id
                    = (highlightC (cancel_timer (render st)) 0).timer_id from rfl,
                  highlightC_timer_id] at hh
                simp [cancel_timer, render] at hh
              · intro h d hh
                rw [show (setWordTimer (chainFields (highlightC (cancel_timer (render st)) 0)
                    (totalOf st)) _).word_timer_id
                    = some ((highlightC (cancel_timer (render st)) 0).next_fresh,
                        max 1 (((chainFields (highlightC (cancel_timer (render st)) 0)
                          (totalOf st)).word_intervals_ms).getD 0 0)) from rfl,
                  highlightC_next_fresh] at hh
                simp only [Option.some.injEq, Prod.mk.injEq] at hh
                obtain ⟨hh1, -⟩ := hh
                rw [← hh1]
                simp [cancel_timer, render]
            · intro hcase
              rcases hcase with hcase | hcase
              · rw [hcase] at hst; exact absurd hst (by simp)
              · rw [hcase] at hpa; exact absurd hpa (by simp)
            · intro _ _ _
              right
              simp [setWordTimer]
            · intro _
              rw [show (setWordTimer (chainFields (highlightC (cancel_timer (render st)) 0)
                  (totalOf st)) _).word_spans
                  = (highlightC (cancel_timer (render st)) 0).word_spans from rfl,
                highlightC_word_spans]
              simp [cancel_timer, render, hbrk]
    · rw [if_neg hs]
      refine ⟨by simp [cancel_timer, render], by simp [cancel_timer, render],
        ⟨by intro h d hh; simp [cancel_timer, render] at hh,
         by intro h d hh; simp [cancel_timer, render] at hh⟩, ?_, ?_, ?_⟩
      · intro _
        exact ⟨by simp [cancel_timer, render], by simp [cancel_timer, render],
          fun _ => by simp [cancel_timer, render]⟩
      · intro hst hpa _
        rw [hst, hpa] at hs
        exact absurd (by simp : (true && !false) = true) hs
      · intro _
        simp [cancel_timer, render]

theorem bump_next_eq (st : St) :
    bump_next st
      = { st with idx := if st.idx < st.paragraphs.length - 1
                         then st.idx + 1 else st.idx } := by
  unfold bump_next
  by_cases h : st.idx < st.paragraphs.length - 1
  · rw [if_pos h, if_pos h]
  · rw [if_neg h, if_neg h]

theorem bump_prev_eq (st : St) :
    bump_prev st
      = { st with idx := if 0 < st.idx then st.idx - 1 else st.idx } := by
  unfold bump_prev
  by_cases h : 0 < st.idx
  · rw [if_pos h, if_pos h]
  · rw [if_neg h, if_neg h]

/-- Postcondition of a manual navigation call landing on unit `j`: the index
moved to `j` (clamped, no wraparound), the pause flag is unchanged, no timer
from before the call survives, when paused nothing is scheduled and the
cursor is reset, when not paused a fresh chain is pending, and the word spans
are those rendered for the destination unit. -/
def manual_nav_post (st r : St) (j : Nat) : Prop :=
  r.idx = j
    ∧ r.paused = st.paused
    ∧ timersFresh r st
    ∧ (st.paused = true →
        r.timer_id = none ∧ r.word_timer_id = none ∧ r.current_word_index = -1)
    ∧ (st.paused = false →
        r.timer_id.isSome = true ∨ r.word_timer_id.isSome = true)
    ∧ r.word_spans
        = (if _is_break_paragraph (st.paragraphs.getD j [])
              (st.duration_overrides_ms.getD j none)
           then [] else wordSpans (st.paragraphs.getD j []))

end Ctrl

/-- Claim C5 (amended): manual navigation (next/previous) first cancels all
pending timers unconditionally, then moves the index by one clamped to
`[0, number of units - 1]` with no wraparound, renders the destination unit
with word-highlight progress reset, and starts a fresh timer chain only when
the paused flag is false — provided that, when not paused, the destination
unit does not complete synchronously (it is a break unit, has no word spans,
or has positive computed duration; otherwise the synchronous auto-advance of
a zero-duration unit can move the index further than one step, see the
counterexample). -/
theorem C5_manual_navigation (fuel : Nat) (st : Ctrl.St)
    (hP : st.paragraphs ≠ [])
    (hnext : st.paused = false →
      Ctrl.unit_no_sync st
        (if st.idx < st.paragraphs.length - 1 then st.idx + 1 else st.idx))
    (hprev : st.paused = false →
      Ctrl.unit_no_sync st (if 0 < st.idx then st.idx - 1 else st.idx)) :
    Ctrl.manual_nav_post st (Ctrl.next_manual fuel st)
        (if st.idx < st.paragraphs.length - 1 then st.idx + 1 else st.idx)
      ∧ Ctrl.manual_nav_post st (Ctrl.prev_manual fuel st)
        (if 0 < st.idx then st.idx - 1 else st.idx) := by
  constructor
  · have h2 : Ctrl.bump_next (Ctrl.cancel_timer st)
        = { st with
            timer_id := none, word_timer_id := none,
            idx := if st.idx < st.paragraphs.length - 1
                   then st.idx + 1 else st.idx } := by
      rw [Ctrl.bump_next_eq]
      rfl
    unfold Ctrl.next_manual
    rw [h2]
    obtain ⟨e1, e2, e3, e4, e5, e6⟩ := Ctrl.show_current_no_sync fuel
      (!({ st with
           timer_id := none, word_timer_id := none,
           idx := if st.idx < st.paragraphs.length - 1
                  then st.idx + 1 else st.idx } : Ctrl.St).paused)
      { st with
        timer_id := none, word_timer_id := none,
        idx := if st.idx < st.paragraphs.length - 1 then st.idx + 1 else st.idx }
      rfl rfl
      (fun _ hpa => hnext hpa)
    refine ⟨e1, e2, e3, ?_, ?_, ?_⟩
    · intro hpa
      have := e4 (Or.inr hpa)
      exact ⟨this.1, this.2.1, this.2.2 hP⟩
    · intro hpa
      exact e5 (by simp [hpa]) hpa hP
    · exact e6 hP
  · have h2 : Ctrl.bump_prev (Ctrl.cancel_timer st)
        = { st with
            timer_id := none, word_timer_id := none,
            idx := if 0 < st.idx then st.idx - 1 else st.idx } := by
      rw [Ctrl.bump_prev_eq]
      rfl
    unfold Ctrl.prev_manual
    rw [h2]
    obtain ⟨e1, e2, e3, e4, e5, e6⟩ := Ctrl.show_current_no_sync fuel
      (!({ st with
           timer_id := none, word_timer_id := none,
           idx := if 0 < st.idx then st.idx - 1 else st.idx } : Ctrl.St).paused)
      { st with
        timer_id := none, word_timer_id := none,
        idx := if 0 < st.idx then st.idx - 1 else st.idx }
      rfl rfl
      (fun _ hpa => hprev hpa)
    refine ⟨e1, e2, e3, ?_, ?_, ?_⟩
    · intro hpa
      have := e4 (Or.inr hpa)
      exact ⟨this.1, this.2.1, this.2.2 hP⟩
    · intro hpa
      exact e5 (by simp [hpa]) hpa hP
    · exact e6 hP

/-- Counterexample input for claim C5 as stated: with `max_sec = 0` every
non-break unit's computed duration is 0, so `next_manual` from unit 0 of
three units synchronously cascades to unit 2 — the index moves by two, not
one. -/
theorem C5_counterexample :
    (Ctrl.next_manual 10
        { paragraphs := ["aa".toList, "bb".toList, "cc".toList],
          duration_overrides_ms := [none, none, none],
          opts := { spw := 2/5, wpm := 150, min_sec := 2, max_sec := some 0 },
          idx := 0, paused := false, timer_id := none, word_timer_id := none,
          word_spans := [], current_word_index := -1, word_intervals_ms := [],
          next_interval_idx := 0, last_hold := 0, done := false,
          next_fresh := 0 }).idx = 2
      ∧ (2 : Nat) ≠ 0 + 1 := by
  exact ⟨by decide, by decide⟩

/-- Witness for C5 (amended) on a two-unit state with ordinary pacing. -/
theorem C5_manual_navigation_witness :
    (let st : Ctrl.St :=
      { paragraphs := ["hello world".toList, "b c".toList],
        duration_overrides_ms := [none, none],
        opts := { spw := 2/5, wpm := 150, min_sec := 2, max_sec := none },
        idx := 0, paused := false, timer_id := some (1, 500),
        word_timer_id := none, word_spans := [], current_word_index := -1,
        word_intervals_ms := [], next_interval_idx := 0, last_hold := 0,
        done := false, next_fresh := 2 }
    st.paragraphs ≠ []
      ∧ Ctrl.manual_nav_post st (Ctrl.next_manual 10 st)
          (if st.idx < st.paragraphs.length - 1 then st.idx + 1 else st.idx)
      ∧ Ctrl.manual_nav_post st (Ctrl.prev_manual 10 st)
          (if 0 < st.idx then st.idx - 1 else st.idx)) :=
  ⟨by decide,
    (C5_manual_navigation 10 _ (by decide)
      (fun _ => by right; right; decide)
      (fun _ => by right; right; decide)).1,
    (C5_manual_navigation 10 _ (by decide)
      (fun _ => by right; right; decide)
      (fun _ => by right; right; decide)).2⟩

/-- Claim C6 (amended): for every prior playback state, `restart` cancels
the pending timers, resets the index to 0, clears the paused flag, renders
and starts: afterwards the index is 0, `paused` is false and no timer from
before the call is still pending — provided unit 0 does not complete
synchronously (the unit list is empty, or unit 0 is a break unit, has no
word spans, or has positive computed duration; otherwise the synchronous
auto-advance of a zero-duration unit 0 leaves the index past 0, see the
counterexample). -/
theorem C6_restart (fuel : Nat) (st : Ctrl.St)
    (h : st.paragraphs = [] ∨ Ctrl.unit_no_sync st 0) :
    (Ctrl.restart fuel st).idx = 0
      ∧ (Ctrl.restart fuel st).paused = false
      ∧ Ctrl.timersFresh (Ctrl.restart fuel st) st := by
  rcases h with h | h
  · unfold Ctrl.restart Ctrl.show_current
    rw [if_pos (by simpa [Ctrl.cancel_timer] using h)]
    exact ⟨rfl, rfl, by intro h d hh; simp [Ctrl.cancel_timer] at hh,
      by intro h d hh; simp [Ctrl.cancel_timer] at hh⟩
  · unfold Ctrl.restart
    obtain ⟨e1, e2, e3, -, -, -⟩ := Ctrl.show_current_no_sync fuel true
      { Ctrl.cancel_timer st with idx := 0, paused := false } rfl rfl
      (fun _ _ => h)
    exact ⟨e1, e2, e3⟩

/-- Counterexample input for claim C6 as stated: with `max_sec = 0` both
units have computed duration 0, so `restart` synchronously cascades from
unit 0 to unit 1 and the state does not end at index 0. -/
theorem C6_counterexample :
    (Ctrl.restart 10
        { paragraphs := ["aa".toList, "bb".toList],
          duration_overrides_ms := [none, none],
          opts := { spw := 2/5, wpm := 150, min_sec := 2, max_sec := some 0 },
          idx := 1, paused := true, timer_id := some (3, 7),
          word_timer_id := none, word_spans := [], current_word_index := -1,
          word_intervals_ms := [], next_interval_idx := 0, last_hold := 0,
          done := false, next_fresh := 4 }).idx = 1
      ∧ (1 : Nat) ≠ 0 := by
  exact ⟨by decide, by decide⟩

/-- Witness for C6 (amended) on a paused two-unit state with pending timers
and ordinary pacing. -/
theorem C6_restart_witness :
    (let st : Ctrl.St :=
      { paragraphs := ["hello world".toList, "b c".toList],
        duration_overrides_ms := [none, none],
        opts := { spw := 2/5, wpm := 150, min_sec := 2, max_sec := none },
        idx := 1, paused := true, timer_id := some (1, 500),
        word_timer_id := some (0, 30), word_spans := [],
        current_word_index := -1, word_intervals_ms := [],
        next_interval_idx := 0, last_hold := 0, done := false,
        next_fresh := 2 }
    (Ctrl.restart 10 st).idx = 0
      ∧ (Ctrl.restart 10 st).paused = false
      ∧ Ctrl.timersFresh (Ctrl.restart 10 st) st) :=
  ⟨(C6_restart 10 _ (Or.inr (by right; right; decide))).1,
    (C6_restart 10 _ (Or.inr (by right; right; decide))).2.1,
    (C6_restart 10 _ (Or.inr (by right; right; decide))).2.2⟩

end Teleprompter
